import Mathlib

/-!
Shallow embedding of the DMC abstract engine (src/src/abstract.cpp and
src/src/types.h) and proofs about it.

Modelling conventions, fixed once for the whole development:

* C++ `float` is modelled by `ℚ` (exact arithmetic; the algorithms are
  finite sums, products and divisions of small rationals).  The single
  place where the source can produce a non-finite float — the
  `Index / (totalSummaries - 1)` division in `calculateChronicPoints`,
  which is `0.0f / 0.0f = NaN` when `totalSummaries = 1` — is modelled
  with `Option ℚ`, `none` standing for a non-finite value (NaN or an
  infinity).  Addition and multiplication propagate `none`, exactly as
  IEEE NaN propagates.

* `std::unordered_map<std::string, definition>` is modelled as an
  association list `DefMap` iterated in insertion order.  The iteration
  order of the source's `unordered_map` is implementation defined; the
  source comments rely on insertion order ("The last added definition
  should be the newest occurrence of the definition", lokiClustering),
  and the model adopts that reading.  Reachable tables have pairwise
  distinct keys, so the "update every matching entry" and "erase every
  matching entry" operations below coincide with the source's
  single-entry update and erase.

* `std::sqrt` is an external library call; every function that needs it
  takes an explicit parameter `sq : ℚ → ℚ`.  No theorem below depends on
  any property of `sq`; in all concrete evaluations the `sq`-using code
  paths are unreachable.

* Pointers from cluster nodes to definitions are modelled as the
  definition's key in the table; pointers from hub clusters to earlier
  clusters are modelled by copying the cluster value at push time (the
  source never mutates a cluster after it has been published, so the
  copy and the pointer are observationally equal).

* `cluster::getVector` caches its result in the source.  Within
  `cluster()` no cluster vector is read again after a later mutation of
  the member definitions, so a pure (cache-free) function computes the
  same values on every path exercised here.
-/

set_option maxHeartbeats 1000000

/-- types::connection - an edge from a definition to a summary time slot. -/
structure Conn where
  Index : Nat
  weight : ℚ
deriving DecidableEq, Repr

/-- types::definition.  `chronicPoint` is `Option ℚ`: `none` models a
non-finite float (see the header comment). -/
structure Defn where
  symbol : String
  connections : List Conn
  referenced : List Nat
  history : List String
  CommitFrequency : ℚ
  ClusterFrequency : ℚ
  chronicPoint : Option ℚ
  fileVector : ℚ
deriving DecidableEq, Repr

/-- The freshly constructed types::definition. -/
def defaultDefn : Defn :=
  { symbol := "", connections := [], referenced := [], history := [],
    CommitFrequency := 0, ClusterFrequency := 0, chronicPoint := some 0, fileVector := 0 }

/-- types::summary (the fields the engine reads). -/
structure Summary where
  id : String
  ctagDefinitions : List String
  regexDefinitions : List String
  timeIndex : Nat
deriving DecidableEq, Repr

/-- types::hunk (the fields the file resolver reads). -/
structure Hunk where
  file : String
  changeType : String
  oldStart : Nat
  oldLines : Nat
  newStart : Nat
  newLines : Nat
deriving DecidableEq, Repr

/-- types::commit (the fields the engine reads). -/
structure Commit where
  id : String
  hunks : List Hunk
  summaryIndex : Nat
deriving DecidableEq, Repr

/-- types::getNormalSymbol: remove underscores, then lower-case. -/
def normalSymbol (raw : String) : String :=
  String.mk (((raw.toList).filter (fun c => c != '_')).map Char.toLower)

/-- The definition table: an association list in insertion order (see the
header comment on the unordered_map model). -/
abbrev DefMap := List (String × Defn)

/-- Key lookup in the definition table (unordered_map::find). -/
def lookupTbl (t : DefMap) (k : String) : Option Defn :=
  (t.find? (fun p => p.1 == k)).map (fun p => p.2)

/-- Update the entry with key `k` in place (reachable tables have unique
keys, so mapping over all matches equals the source's single update). -/
def updateTbl (t : DefMap) (k : String) (f : Defn → Defn) : DefMap :=
  t.map (fun p => if p.1 == k then (p.1, f p.2) else p)

/-- unordered_map::erase(key). -/
def eraseTbl (t : DefMap) (k : String) : DefMap :=
  t.filter (fun p => p.1 != k)

/-- FLT_MIN, the radius a fresh types::cluster starts with. -/
def fltMin : ℚ := 1 / 2 ^ 126

/-- Node kinds of types::node::Type that clustering produces. -/
inductive CTy where
  | chronic
  | occurrence
  | dissonanceHub
  | resonanceHub
  | context
deriving DecidableEq, Repr

mutual
/-- types::cluster / types::context: kind, context symbol (empty for plain
clusters), radius and the polymorphic child list. -/
inductive CNode where
  | mk (cty : CTy) (csym : String) (radius : ℚ) (members : List Mem)

/-- A child of a cluster: a pointer to a definition in the table (modelled
by its key) or an owned/nested cluster node. -/
inductive Mem where
  | defRef (key : String)
  | sub (c : CNode)
end

def CNode.cty : CNode → CTy
  | .mk t _ _ _ => t

def CNode.csym : CNode → String
  | .mk _ s _ _ => s

def CNode.radius : CNode → ℚ
  | .mk _ _ r _ => r

def CNode.members : CNode → List Mem
  | .mk _ _ _ m => m

/-- A fresh types::cluster of the given kind. -/
def newCluster (t : CTy) : CNode := .mk t "" fltMin []

/-- A fresh types::context. -/
def newContext (sym : String) : CNode := .mk CTy.context sym fltMin []

/-- The abstract::base engine state (the data members used by the
implementation in abstract.cpp). -/
structure State where
  definitions : DefMap
  summaries : List Summary
  commits : List Commit
  files : List Defn
  clusters : List CNode
  totalSummaries : Nat
  totalCommits : Nat

/-- A freshly constructed engine. -/
def initState : State :=
  { definitions := [], summaries := [], commits := [], files := [],
    clusters := [], totalSummaries := 0, totalCommits := 0 }

/-- abstract::base::calculateConnectionWeight. -/
def calculateConnectionWeight (timeIndex : Nat) (numCommits : Nat) : ℚ :=
  if numCommits ≤ 1 then 1 else ((timeIndex : ℚ) + 1) / (numCommits : ℚ)

/-- The connection-adding logic of addDefinition: accumulate onto the first
existing connection with the same index, append otherwise. -/
def addConnection : List Conn → Nat → ℚ → List Conn
  | [], t, w => [⟨t, w⟩]
  | c :: rest, t, w =>
      if c.Index = t then { c with weight := c.weight + w } :: rest
      else c :: addConnection rest t w

/-- abstract::base::addDefinition: find-or-create the definition, then add
the connection for this summary. -/
def addDefinition (tbl : DefMap) (sym : String) (commitIndex : Nat) (w : ℚ) : DefMap :=
  let tbl' := if (lookupTbl tbl sym).isSome then tbl
              else tbl ++ [(sym, { defaultDefn with symbol := sym })]
  updateTbl tbl' sym (fun d => { d with connections := addConnection d.connections commitIndex w })

/-- abstract::base::processSummary: every non-empty symbol of the ctag list
and then of the regex list is added with this summary's weight.  The source
runs two identical loops; filtering the concatenation is the same traversal. -/
def processSummary (tbl : DefMap) (sm : Summary) (timeIndex : Nat) (n : Nat) : DefMap :=
  let w := calculateConnectionWeight timeIndex n
  ((sm.ctagDefinitions ++ sm.regexDefinitions).filter (fun s => s != "")).foldl
    (fun tb sym => addDefinition tb sym timeIndex w) tbl

/-- Sum of connection weights of one definition (the inner loop of
calculateOccurrences). -/
def sumWeights (d : Defn) : ℚ :=
  d.connections.foldl (fun a c => a + c.weight) 0

/-- The maximum possible weight loop of calculateOccurrences. -/
def maxPossibleWeight (n : Nat) : ℚ :=
  (List.range n).foldl (fun a i => a + calculateConnectionWeight i n) 0

/-- abstract::base::calculateOccurrences. -/
def calculateOccurrences (s : State) : State :=
  if s.totalSummaries = 0 then s
  else
    let maxW := maxPossibleWeight s.totalSummaries
    { s with definitions := s.definitions.map (fun p =>
        (p.1, { p.2 with CommitFrequency := if 0 < maxW then sumWeights p.2 / maxW else 0 })) }

/-- Float division: `none` when the divisor is zero (the quotient is then
NaN or an infinity, both non-finite). -/
def fdiv (a b : ℚ) : Option ℚ :=
  if b = 0 then none else some (a / b)

/-- The per-definition body of calculateChronicPoints.  The normalised time
`Index / (n - 1)` is a float division; for `n = 1` it is `0/0 = NaN`, which
propagates through the weighted sum (`none`). -/
def chronicCalc (n : Nat) (conns : List Conn) : Option ℚ :=
  if conns.isEmpty then some 0
  else
    let acc := conns.foldl
      (fun (a : Option ℚ × ℚ) c =>
        (do
          let s ← a.1
          let nt ← fdiv (c.Index : ℚ) (((n - 1 : Nat) : ℚ))
          pure (s + nt * c.weight),
         a.2 + c.weight))
      (some 0, 0)
    if 0 < acc.2 then (do pure ((← acc.1) / acc.2)) else some 0

/-- abstract::base::calculateChronicPoints (iterates the definition table
only; the file list is untouched, as in the source). -/
def calculateChronicPoints (s : State) : State :=
  if s.totalSummaries = 0 then s
  else
    { s with definitions := s.definitions.map (fun p =>
        (p.1, { p.2 with chronicPoint := chronicCalc s.totalSummaries p.2.connections })) }

/-- abstract::base::processSummaries: stamp time indices in insertion order,
process every summary, then compute the statistics. -/
def processSummaries (s : State) (input : List Summary) : State :=
  let stamped := input.enum.map (fun p => { p.2 with timeIndex := p.1 })
  let s1 := { s with summaries := stamped, totalSummaries := input.length }
  let tbl := input.enum.foldl
    (fun tb p => processSummary tb p.2 p.1 s1.totalSummaries) s1.definitions
  calculateChronicPoints (calculateOccurrences { s1 with definitions := tbl })

/-- The equivalence-class member keys for one normalised symbol, in table
(insertion) order — the vectors the source's lokiClustering builds in its
`related` map. -/
def classKeys (t : DefMap) (n : String) : List String :=
  (t.filter (fun p => normalSymbol p.1 == n)).map (fun p => p.1)

/-- The distinct normalised symbols of the table, in first-occurrence
order, each with its member keys: the `related` map of lokiClustering. -/
def classList (t : DefMap) : List (String × List String) :=
  ((t.map (fun p => normalSymbol p.1)).dedup).map (fun n => (n, classKeys t n))

/-- Phase 1 of lokiClustering for one equivalence class: the last member is
the inheritor; every earlier member's symbol is pushed to its history and
its connections appended, in member order. -/
def lokiInherit (t : DefMap) (ks : List String) : DefMap :=
  if ks.length < 2 then t
  else
    match ks.getLast? with
    | none => t
    | some inh =>
        let priors := ks.dropLast
        let hist := priors.map (fun k => ((lookupTbl t k).getD defaultDefn).symbol)
        let conns := (priors.map (fun k => ((lookupTbl t k).getD defaultDefn).connections)).flatten
        updateTbl t inh (fun d =>
          { d with history := d.history ++ hist, connections := d.connections ++ conns })

/-- One erasure of phase 2 of lokiClustering: erase the entry whose key is
the symbol stored in the pointed-to definition.  The source dereferences
the stored pointer; the entry is always present at that point (classes are
disjoint and a key is erased at most once), so a missing key is modelled
as a no-op. -/
def eraseStep (tb : DefMap) (k : String) : DefMap :=
  match lookupTbl tb k with
  | some d => eraseTbl tb d.symbol
  | none => tb

/-- Phase 2 of lokiClustering for one class: erase every member but the
last. -/
def lokiErase (t : DefMap) (ks : List String) : DefMap :=
  if ks.length < 2 then t
  else ks.dropLast.foldl eraseStep t

/-- abstract::base::lokiClustering on the definition table: group by
normalised symbol, fold every class's connections and symbols into its
inheritor, then erase the superseded aliases. -/
def tableLoki (t : DefMap) : DefMap :=
  let cls := classList t
  let t1 := cls.foldl (fun tb c => lokiInherit tb c.2) t
  cls.foldl (fun tb c => lokiErase tb c.2) t1

/-- abstract::base::lokiClustering. -/
def lokiClustering (s : State) : State :=
  { s with definitions := tableLoki s.definitions }

/-- Insertion position of std::sort modelled by a stable insertion sort;
the source's comparator order on ties is unspecified, and every theorem
below sorts pairwise-distinct values. -/
def insertBy (lt : α → α → Bool) (x : α) : List α → List α
  | [] => [x]
  | y :: ys => if lt x y then x :: y :: ys else y :: insertBy lt x ys

/-- std::sort with strict comparator `lt`. -/
def sortByLt (lt : α → α → Bool) (l : List α) : List α :=
  l.foldr (insertBy lt) []

/-- Entry of the definition table at a map-iteration position (the
std::advance(definitions.begin(), i) idiom of the banded passes). -/
def entryAt (t : DefMap) (i : Nat) : String × Defn :=
  (t.get? i).getD ("", defaultDefn)

/-- The chronicPoint float read by the banded passes; a non-finite value
(possible only when totalSummaries = 1) is mapped to 0 — ordering NaN with
operator< is unspecified behaviour in the source and unreachable in every
theorem below. -/
def cpVal (o : Option ℚ) : ℚ := o.getD 0

/-- abstract::base::getAverageChronicRadius: mean consecutive chronicPoint
gap along the sorted index list. -/
def getAverageChronicRadius (t : DefMap) (idx : List Nat) : ℚ :=
  if idx.length < 2 then 0
  else
    let total := (List.range (idx.length - 1)).foldl
      (fun a i =>
        a + |cpVal (entryAt t (idx.getD i 0)).2.chronicPoint -
             cpVal (entryAt t (idx.getD (i + 1) 0)).2.chronicPoint|) 0
    total / ((idx.length - 1 : Nat) : ℚ)

/-- abstract::base::getAverageOccurrenceRadius. -/
def getAverageOccurrenceRadius (t : DefMap) (idx : List Nat) : ℚ :=
  if idx.length < 2 then 0
  else
    let total := (List.range (idx.length - 1)).foldl
      (fun a i =>
        a + |(entryAt t (idx.getD i 0)).2.CommitFrequency -
             (entryAt t (idx.getD (i + 1) 0)).2.CommitFrequency|) 0
    total / ((idx.length - 1 : Nat) : ℚ)

/-- Increment ClusterFrequency of the table entry at position `i` (the
`itA->second.ClusterFrequency++` of the banded passes). -/
def bumpClusterFrequency (t : DefMap) (i : Nat) : DefMap :=
  t.set i (let p := entryAt t i; (p.1, { p.2 with ClusterFrequency := p.2.ClusterFrequency + 1 }))

/-- One step of the banded walk over definitions: value function `v`, gap
threshold `tau`; on a wide gap publish the current cluster if non-empty and
start a new one, otherwise absorb the left element and grow the radius. -/
def bandedStep (ty : CTy) (v : DefMap → Nat → ℚ) (tau : ℚ)
    (idx : List Nat) (st : DefMap × List CNode × CNode) (i : Nat) :
    DefMap × List CNode × CNode :=
  let (tbl, cls, cur) := st
  let a := idx.getD i 0
  let b := idx.getD (i + 1) 0
  let dist := |v tbl a - v tbl b|
  if tau < dist then
    if cur.members.isEmpty then (tbl, cls, newCluster ty)
    else (tbl, cls ++ [cur], newCluster ty)
  else
    let tbl' := bumpClusterFrequency tbl a
    let cur' := CNode.mk ty cur.csym (if cur.radius < dist then dist else cur.radius)
      (cur.members ++ [Mem.defRef (entryAt tbl a).1])
    (tbl', cls, cur')

/-- abstract::base::chronicClustering.  The walk stops before the last
sorted index and the trailing current cluster is never published — exactly
as in the source. -/
def chronicClustering (s : State) : State :=
  let n := s.definitions.length
  let cp := fun (t : DefMap) (i : Nat) => cpVal (entryAt t i).2.chronicPoint
  let idx := sortByLt
    (fun a b => decide (cp s.definitions a < cp s.definitions b)) (List.range n)
  let tau := getAverageChronicRadius s.definitions idx
  let res := (List.range (n - 1)).foldl
    (bandedStep CTy.chronic cp tau idx)
    (s.definitions, s.clusters, newCluster CTy.chronic)
  { s with definitions := res.1, clusters := res.2.1 }

/-- abstract::base::occurrenceClustering: the same walk on CommitFrequency,
again without publishing the trailing cluster. -/
def occurrenceClustering (s : State) : State :=
  let n := s.definitions.length
  let oc := fun (t : DefMap) (i : Nat) => (entryAt t i).2.CommitFrequency
  let idx := sortByLt
    (fun a b => decide (oc s.definitions a < oc s.definitions b)) (List.range n)
  let tau := getAverageOccurrenceRadius s.definitions idx
  let res := (List.range (n - 1)).foldl
    (bandedStep CTy.occurrence oc tau idx)
    (s.definitions, s.clusters, newCluster CTy.occurrence)
  { s with definitions := res.1, clusters := res.2.1 }

/-- types::definition::getVector: the four statistics as a vector (a
non-finite chronicPoint reads as 0 here; unreachable in every theorem). -/
def defVector (d : Defn) : List ℚ :=
  [d.CommitFrequency, d.ClusterFrequency, cpVal d.chronicPoint, d.fileVector]

/-- Component-wise addition of two 4-vectors. -/
def add4 (a b : List ℚ) : List ℚ := a.zipWith (fun x y => x + y) b

/-- L2 normalisation of cluster::getVector: divide by sqrt of the inner
product when that is positive. -/
def normalizeV (sq : ℚ → ℚ) (v : List ℚ) : List ℚ :=
  let norm := sq (v.foldl (fun a x => a + x * x) 0)
  if 0 < norm then v.map (fun x => x / norm) else v

mutual
/-- The member-vector accumulation loop of types::cluster::getVector. -/
def memsRawSum (sq : ℚ → ℚ) (tbl : DefMap) : List Mem → List ℚ
  | [] => [0, 0, 0, 0]
  | m :: rest => add4 (memVec sq tbl m) (memsRawSum sq tbl rest)

/-- getVector of one polymorphic child.  A dangling definition pointer is
undefined behaviour in the source; the model contributes a zero vector. -/
def memVec (sq : ℚ → ℚ) (tbl : DefMap) : Mem → List ℚ
  | .defRef k =>
      match lookupTbl tbl k with
      | some d => defVector d
      | none => [0, 0, 0, 0]
  | .sub c => cnodeVec sq tbl c

/-- types::cluster::getVector (pure; see the header comment on the cache). -/
def cnodeVec (sq : ℚ → ℚ) (tbl : DefMap) : CNode → List ℚ
  | .mk _ _ _ ms => if ms.isEmpty then [0, 0, 0, 0] else normalizeV sq (memsRawSum sq tbl ms)
end

/-- abstract::base::dotProduct of two node vectors. -/
def dotProduct (sq : ℚ → ℚ) (tbl : DefMap) (a b : Mem) : ℚ :=
  ((memVec sq tbl a).zip (memVec sq tbl b)).foldl (fun s p => s + p.1 * p.2) 0

/-- Pairwise accumulation Σ_{i<j} f xᵢ xⱼ with the number of pairs. -/
def pairAccum (f : α → α → ℚ) : List α → ℚ × Nat
  | [] => (0, 0)
  | x :: rest =>
      let r := pairAccum f rest
      (rest.foldl (fun a y => a + f x y) 0 + r.1, rest.length + r.2)

/-- abstract::base::getAverageClusterSimilarityRadius. -/
def getAverageClusterSimilarityRadius (idx : List Nat) (sim : List ℚ) : ℚ :=
  if idx.length < 2 then 0
  else
    let total := (List.range (idx.length - 1)).foldl
      (fun a i => a + |sim.getD (idx.getD i 0) 0 - sim.getD (idx.getD (i + 1) 0) 0|) 0
    total / ((idx.length - 1 : Nat) : ℚ)

/-- abstract::base::getAverageClusterRadius. -/
def getAverageClusterRadius (cs : List CNode) (idx : List Nat) : ℚ :=
  if idx.length < 2 then 0
  else
    let total := (List.range (idx.length - 1)).foldl
      (fun a i => a + |((cs.get? (idx.getD i 0)).getD (newCluster CTy.chronic)).radius -
                     ((cs.get? (idx.getD (i + 1) 0)).getD (newCluster CTy.chronic)).radius|) 0
    total / ((idx.length - 1 : Nat) : ℚ)

/-- abstract::base::resonanceHubClustering.  This is the only banded pass
that publishes the trailing current cluster after the walk. -/
def resonanceHubClustering (sq : ℚ → ℚ) (s : State) : State :=
  if s.clusters.isEmpty then s
  else
    let n := s.clusters.length
    let sim := s.clusters.map (fun c =>
      if c.members.isEmpty then 0
      else
        let st := pairAccum (fun a b => dotProduct sq s.definitions a b) c.members
        if 0 < st.2 then st.1 / (st.2 : ℚ) else 0)
    let idx := sortByLt (fun a b => decide (sim.getD a 0 < sim.getD b 0)) (List.range n)
    let tau := getAverageClusterSimilarityRadius idx sim
    let res := (List.range (n - 1)).foldl
      (fun (st : List CNode × CNode) i =>
        let (cls, cur) := st
        let a := idx.getD i 0
        let b := idx.getD (i + 1) 0
        let dist := |sim.getD a 0 - sim.getD b 0|
        if tau < dist then
          if cur.members.isEmpty then (cls, newCluster CTy.resonanceHub)
          else (cls ++ [cur], newCluster CTy.resonanceHub)
        else
          let cur' := CNode.mk CTy.resonanceHub cur.csym
            (if cur.radius < dist then dist else cur.radius)
            (cur.members ++ [Mem.sub ((s.clusters.get? a).getD (newCluster CTy.resonanceHub))])
          (cls, cur'))
      (s.clusters, newCluster CTy.resonanceHub)
    let final := if res.2.members.isEmpty then res.1 else res.1 ++ [res.2]
    { s with clusters := final }

/-- abstract::base::dissonanceHubClustering: the banded walk on cluster
radius; the trailing current cluster is not published (as in the source). -/
def dissonanceHubClustering (s : State) : State :=
  if s.clusters.isEmpty then s
  else
    let n := s.clusters.length
    let rad := fun (i : Nat) => ((s.clusters.get? i).getD (newCluster CTy.dissonanceHub)).radius
    let idx := sortByLt (fun a b => decide (rad a < rad b)) (List.range n)
    let tau := getAverageClusterRadius s.clusters idx
    let res := (List.range (n - 1)).foldl
      (fun (st : List CNode × CNode) i =>
        let (cls, cur) := st
        let a := idx.getD i 0
        let b := idx.getD (i + 1) 0
        let dist := |rad a - rad b|
        if tau < dist then
          if cur.members.isEmpty then (cls, newCluster CTy.dissonanceHub)
          else (cls ++ [cur], newCluster CTy.dissonanceHub)
        else
          let cur' := CNode.mk CTy.dissonanceHub cur.csym
            (if cur.radius < dist then dist else cur.radius)
            (cur.members ++ [Mem.sub ((s.clusters.get? a).getD (newCluster CTy.dissonanceHub))])
          (cls, cur'))
      (s.clusters, newCluster CTy.dissonanceHub)
    { s with clusters := res.1 }

/-- The scanning loop of abstract::slice: split at the earliest occurrence
of any (non-empty) delimiter; `acc` is the reversed current piece.  The
`drop (d.length - 1)` on the tail equals dropping the whole match from the
current list, since a matching delimiter is non-empty. -/
def sliceGo (delims : List (List Char)) : List Char → List Char → List (List Char)
  | [], acc => [acc.reverse]
  | c :: rest, acc =>
      match delims.find? (fun d => !d.isEmpty && d.isPrefixOf (c :: rest)) with
      | some d =>
          let rem := rest.drop (d.length - 1)
          acc.reverse :: (if rem.isEmpty then [] else sliceGo delims rem [])
      | none => sliceGo delims rest (c :: acc)
  termination_by l _ => l.length
  decreasing_by
    · simp only [List.length_drop, List.length_cons]; omega
    · simp only [List.length_cons]; omega

/-- abstract::slice: the empty input yields no parts (the source's while
loop never runs); a delimiter match at the very end yields no trailing
empty part. -/
def sliceParts (input : String) (delimiters : List String) : List String :=
  if input.isEmpty then []
  else (sliceGo (delimiters.map String.toList) input.toList []).map String.mk

/-- abstract::base::findContext: index of the first top-level CONTEXT
cluster whose normalised symbol equals `name` (the caller passes `name`
already normalised). -/
def findContext (cls : List CNode) (name : String) : Option Nat :=
  cls.findIdx? (fun c => c.cty == CTy.context && normalSymbol c.csym == name)

mutual
/-- types::context::find, returning the path (member indices) from this
node to the first match in pre-order; `some []` is the node itself. -/
def ctxFindPath (c : CNode) (name : String) : Option (List Nat) :=
  match c with
  | .mk _ sym _ ms =>
      if normalSymbol sym == normalSymbol name then some []
      else findInMems ms name 0

/-- The child loop of types::context::find: only CONTEXT children are
searched. -/
def findInMems : List Mem → String → Nat → Option (List Nat)
  | [], _, _ => none
  | .defRef _ :: rest, name, i => findInMems rest name (i + 1)
  | .sub c :: rest, name, i =>
      if c.cty == CTy.context then
        match ctxFindPath c name with
        | some p => some (i :: p)
        | none => findInMems rest name (i + 1)
      else findInMems rest name (i + 1)
end

/-- Follow a member path inside a cluster node. -/
def getAtPath : CNode → List Nat → Option CNode
  | c, [] => some c
  | c, i :: p =>
      match c.members.get? i with
      | some (.sub sub) => getAtPath sub p
      | _ => none
  termination_by _ p => p.length

/-- Apply `f` to the node addressed by a member path (in-place tree
mutation through the source's context pointers). -/
def updateAtPath : CNode → List Nat → (CNode → CNode) → CNode
  | c, [], f => f c
  | .mk ty sy r ms, i :: p, f =>
      match ms.get? i with
      | some (.sub sub) => .mk ty sy r (ms.set i (.sub (updateAtPath sub p f)))
      | _ => .mk ty sy r ms
  termination_by _ p _ => p.length

/-- Push one member onto the node at `path` inside `cls[rootIdx]`. -/
def pushMemberAt (cls : List CNode) (rootIdx : Nat) (path : List Nat) (m : Mem) : List CNode :=
  match cls.get? rootIdx with
  | some root => cls.set rootIdx (updateAtPath root path (fun c =>
      match c with
      | .mk ty sy r ms => .mk ty sy r (ms ++ [m])))
  | none => cls

/-- The middle-segment descent loop of namespaceClustering: walk or create
the chain of nested contexts, returning the updated cluster list and the
path of the final context relative to the root. -/
def nsDescend (cls : List CNode) (rootIdx : Nat) :
    List String → List Nat → List CNode × List Nat
  | [], path => (cls, path)
  | name :: rest, path =>
      match (cls.get? rootIdx).bind (fun r => getAtPath r path) with
      | none => (cls, path)
      | some root =>
          if name == root.csym then nsDescend cls rootIdx rest path
          else
            match ctxFindPath root name with
            | some p => nsDescend cls rootIdx rest (path ++ p)
            | none =>
                let childIdx := root.members.length
                let cls' := pushMemberAt cls rootIdx path (Mem.sub (newContext name))
                nsDescend cls' rootIdx rest (path ++ [childIdx])
  termination_by l _ => l.length

/-- The body of namespaceClustering for one (original) key of the
definition table. -/
def nsStep (s : State) (k : String) : State :=
  match lookupTbl s.definitions k with
  | none => s
  | some d =>
      let parts := sliceParts k ["::", "/"]
      if parts.length < 2 then s
      else
        let front := parts.headD ""
        let cr :=
          match findContext s.clusters (normalSymbol front) with
          | some i => (s.clusters, i)
          | none => (s.clusters ++ [newContext front], s.clusters.length)
        let middles := (parts.drop 1).dropLast
        let dp := nsDescend cr.1 cr.2 middles []
        let cls2 := pushMemberAt dp.1 cr.2 dp.2 (Mem.defRef k)
        let last := parts.getLastD ""
        let tbl1 := updateTbl s.definitions k (fun d0 => { d0 with symbol := last })
        let newVal := { d with symbol := last }
        let tbl2 := if (lookupTbl tbl1 last).isSome
                    then updateTbl tbl1 last (fun _ => newVal)
                    else tbl1 ++ [(last, newVal)]
        { s with definitions := tbl2, clusters := cls2 }

/-- abstract::base::namespaceClustering.  The source inserts into the
unordered_map while range-iterating it (whether the new entries are visited
is unspecified); the model iterates exactly the snapshot of original keys,
reading each entry's current value when its turn comes. -/
def namespaceClustering (s : State) : State :=
  (s.definitions.map (fun p => p.1)).foldl nsStep s

/-- abstract::base::getConnectionWeightsVector: a length-N time-axis
vector; connections with an out-of-range index are skipped. -/
def getConnectionWeightsVector (n : Nat) (d : Defn) : List ℚ :=
  d.connections.foldl
    (fun w c => if c.Index < n then w.set c.Index c.weight else w)
    (List.replicate n 0)

/-- abstract::base::calculateCosineSimilarity over the time-axis weight
vectors. -/
def calculateCosineSimilarity (sq : ℚ → ℚ) (n : Nat) (d1 d2 : Defn) : ℚ :=
  let w1 := getConnectionWeightsVector n d1
  let w2 := getConnectionWeightsVector n d2
  if w1.length ≠ w2.length then 0
  else
    let dot := (w1.zip w2).foldl (fun a p => a + p.1 * p.2) 0
    let m1 := sq (w1.foldl (fun a x => a + x * x) 0)
    let m2 := sq (w2.foldl (fun a x => a + x * x) 0)
    if m1 = 0 ∨ m2 = 0 then 0 else dot / (m1 * m2)

/-- Append one value to a keyed bucket (unordered_map of vectors), creating
the bucket at the end on first touch. -/
def assocAppend (m : List (String × List α)) (k : String) (v : α) : List (String × List α) :=
  if (m.find? (fun p => p.1 == k)).isSome
  then m.map (fun p => if p.1 == k then (p.1, p.2 ++ [v]) else p)
  else m ++ [(k, [v])]

/-- Append a whole list to a keyed bucket. -/
def assocAppendList (m : List (String × List α)) (k : String) (vs : List α) :
    List (String × List α) :=
  if (m.find? (fun p => p.1 == k)).isSome
  then m.map (fun p => if p.1 == k then (p.1, p.2 ++ vs) else p)
  else m ++ [(k, vs)]

/-- Read a keyed bucket (empty when absent, as operator[] default). -/
def assocGet (m : List (String × List α)) (k : String) : List α :=
  ((m.find? (fun p => p.1 == k)).map (fun p => p.2)).getD []

/-- abstract::base::fileClustering.  The source also allocates one context
node per file bucket but never publishes it into the cluster list (and
never frees it); the allocation has no observable effect and is omitted. -/
def fileClustering (sq : ℚ → ℚ) (s : State) : State :=
  if s.files.isEmpty || s.definitions.isEmpty then s
  else
    let f2d := s.files.foldl
      (fun m f =>
        f.connections.foldl
          (fun m conn =>
            s.definitions.foldl
              (fun m p =>
                if p.2.connections.any (fun dc => dc.Index == conn.Index)
                then assocAppend m f.symbol p.1 else m) m) m)
      ([] : List (String × List String))
    let nf := s.files.length
    let avgSim := (List.range nf).map (fun i =>
      let fa := (s.files.get? i).getD defaultDefn
      let tot := (List.range nf).foldl
        (fun a j =>
          if i = j then a
          else a + calculateCosineSimilarity sq s.totalSummaries fa
                     ((s.files.get? j).getD defaultDefn)) 0
      if 0 < nf - 1 then tot / ((nf - 1 : Nat) : ℚ) else 0)
    let idx := sortByLt (fun a b => decide (avgSim.getD a 0 < avgSim.getD b 0)) (List.range nf)
    let files2 := idx.map (fun i => (s.files.get? i).getD defaultDefn)
    let step4 := f2d.foldl
      (fun (st : DefMap × List (String × List Nat)) bucket =>
        let fileIndex := (files2.findIdx? (fun fd => fd.symbol == bucket.1)).getD 0
        bucket.2.foldl
          (fun (st : DefMap × List (String × List Nat)) dk =>
            if (assocGet st.2 dk).contains fileIndex then st
            else
              (updateTbl st.1 dk (fun d => { d with referenced := d.referenced ++ [fileIndex] }),
               assocAppend st.2 dk fileIndex))
          st)
      (s.definitions, ([] : List (String × List Nat)))
    let tbl2 := step4.1.map (fun p =>
      let d := p.2
      let sum := d.referenced.foldl (fun a r => a + (r : ℚ)) d.fileVector
      let fv := if d.referenced.isEmpty then 0
                else
                  let avg := sum / ((d.referenced.length : Nat) : ℚ)
                  if 1 < files2.length then avg / ((files2.length - 1 : Nat) : ℚ) else avg
      (p.1, { d with fileVector := fv }))
    { s with files := files2, definitions := tbl2 }

/-- abstract::base::gradientDecent: the source's body is empty. -/
def gradientDecent (s : State) : State := s

/-- abstract::base::cluster: clear the cluster list, require at least two
definitions, then run the passes in the source's order. -/
def cluster (sq : ℚ → ℚ) (s : State) : State :=
  let s0 := { s with clusters := [] }
  if s0.definitions.length < 2 then s0
  else
    gradientDecent (fileClustering sq (dissonanceHubClustering (resonanceHubClustering sq
      (occurrenceClustering (chronicClustering (lokiClustering (namespaceClustering s0)))))))

/-- abstract::base::getClusters. -/
def getClusters (s : State) : List CNode := s.clusters

/-- abstract::base::clear: exactly the four statements of the source
(definitions, summaries, clusters, totalSummaries). -/
def clear (s : State) : State :=
  { s with definitions := [], summaries := [], clusters := [], totalSummaries := 0 }

/-- abstract::base::abstractStats. -/
structure AbstractStats where
  totalDefinitions : Nat
  totalCommits : Nat
  totalConnections : Nat
  averageOccurrence : ℚ
  averageChronicPoint : ℚ
  averageConnectionsPerDefinition : ℚ
deriving DecidableEq, Repr

/-- abstract::base::getStatistics. -/
def getStatistics (s : State) : AbstractStats :=
  let nd := s.definitions.length
  let nc := s.definitions.foldl (fun a p => a + p.2.connections.length) 0
  let sumOcc := s.definitions.foldl (fun a p => a + p.2.CommitFrequency) 0
  let sumCp := s.definitions.foldl (fun a p => a + cpVal p.2.chronicPoint) 0
  { totalDefinitions := nd
    totalCommits := s.totalSummaries
    totalConnections := nc
    averageOccurrence := if 0 < nd then sumOcc / (nd : ℚ) else 0
    averageChronicPoint := if 0 < nd then sumCp / (nd : ℚ) else 0
    averageConnectionsPerDefinition := if 0 < nd then (nc : ℚ) / (nd : ℚ) else 0 }

/-- Squared Euclidean distance of two (equal-length) vectors. -/
def sqDist (v w : List ℚ) : ℚ :=
  (v.zip w).foldl (fun a p => a + (p.1 - p.2) * (p.1 - p.2)) 0

/-- abstract::base::getEntropy: mean pairwise squared distance over
definition vectors minus the same over cluster vectors (when there are at
least two clusters). -/
def getEntropy (sq : ℚ → ℚ) (s : State) : ℚ :=
  if s.definitions.isEmpty then 0
  else
    let defVecs := (s.definitions.map (fun p => defVector p.2)).filter (fun v => !v.isEmpty)
    if defVecs.isEmpty then 0
    else
      let ds := pairAccum sqDist defVecs
      let dE := if 0 < ds.2 then ds.1 / (ds.2 : ℚ) else ds.1
      let cE :=
        if 2 ≤ s.clusters.length then
          let cVecs := ((s.clusters.filter (fun c => !c.members.isEmpty)).map
            (fun c => cnodeVec sq s.definitions c)).filter (fun v => v.length == 4)
          let cs := pairAccum sqDist cVecs
          if 0 < cs.2 then cs.1 / (cs.2 : ℚ) else cs.1
        else 0
      dE - cE

/-- Centroid of a non-empty list of 4-vectors. -/
def centroid (vs : List (List ℚ)) : List ℚ :=
  let sum := vs.foldl add4 [0, 0, 0, 0]
  sum.map (fun x => x * (1 / (vs.length : ℚ)))

/-- abstract::base::getVariance: 1 − intra-cluster variance / overall
definition variance, with the source's degenerate-case returns. -/
def getVariance (sq : ℚ → ℚ) (s : State) : ℚ :=
  if s.definitions.isEmpty then 0
  else
    let vs := (s.definitions.map (fun p => defVector p.2)).filter (fun v => !v.isEmpty)
    if vs.isEmpty then 0
    else
      let q := centroid vs
      let defVar := (vs.foldl (fun a v => a + sqDist v q) 0) * (1 / (vs.length : ℚ))
      let pts := s.clusters.foldl
        (fun (acc : ℚ × Nat) c =>
          if c.members.isEmpty then acc
          else
            let cc := cnodeVec sq s.definitions c
            if cc.length ≠ 4 then acc
            else
              c.members.foldl
                (fun (acc : ℚ × Nat) m =>
                  let v := memVec sq s.definitions m
                  if v.length == 4 then (acc.1 + sqDist v cc, acc.2 + 1) else acc)
                acc)
        (0, 0)
      if pts.2 = 0 then 0
      else
        let intra := pts.1 / (pts.2 : ℚ)
        if defVar = 0 then (if intra = 0 then 0 else 1)
        else 1 - intra / defVar

/-- abstract::base::getAverageClusterSize: mean child count over the
clusters that have children. -/
def getAverageClusterSize (s : State) : ℚ :=
  if s.clusters.isEmpty then 0
  else
    let total := s.clusters.foldl (fun (a : Nat) c => a + c.members.length) 0
    let valid := (s.clusters.filter (fun c => !c.members.isEmpty)).length
    if 0 < valid then (total : ℚ) / (valid : ℚ) else 0

/-- The per-cluster member-vector cache of getSilhouetteScore. -/
def clusterMemberVecs (sq : ℚ → ℚ) (tbl : DefMap) (c : CNode) : List (List ℚ) :=
  (c.members.map (memVec sq tbl)).filter (fun v => v.length == 4)

/-- abstract::base::getSilhouetteScore: the classic (b−a)/max(a,b) score
averaged over the points of the valid clusters, Euclidean distances via
`sq`. -/
def getSilhouetteScore (sq : ℚ → ℚ) (s : State) : ℚ :=
  if s.clusters.isEmpty || s.clusters.length < 2 then 0
  else
    let hasVec := s.clusters.any (fun c => !c.members.isEmpty)
    if !hasVec then 0
    else
      let valid := s.clusters.filterMap (fun c =>
        if c.members.isEmpty then none
        else
          let vs := clusterMemberVecs sq s.definitions c
          if vs.isEmpty then none else some vs)
      if valid.length < 2 then 0
      else
        let res := (List.range valid.length).foldl
          (fun (acc : ℚ × Nat) ci =>
            let vs := valid.getD ci []
            let np := vs.length
            (List.range np).foldl
              (fun (acc : ℚ × Nat) pi =>
                let v := vs.getD pi []
                let intraSum := (List.range np).foldl
                  (fun a oi => if oi = pi then a else a + sq (sqDist v (vs.getD oi []))) 0
                let a := if 0 < np - 1 then intraSum / ((np - 1 : Nat) : ℚ) else 0
                let minB := (List.range valid.length).foldl
                  (fun (mb : Option ℚ) cj =>
                    if cj = ci then mb
                    else
                      let os := valid.getD cj []
                      let inter := os.foldl (fun t ov => t + sq (sqDist v ov)) 0
                      let avg := inter / ((os.length : Nat) : ℚ)
                      match mb with
                      | none => some avg
                      | some m => some (if avg < m then avg else m))
                  none
                let b := minB.getD 0
                let maxAB := if a < b then b else a
                if 0 < maxAB then (acc.1 + (b - a) / maxAB, acc.2 + 1) else acc)
              acc)
          (0, 0)
        if 0 < res.2 then res.1 / (res.2 : ℚ) else 0

/-- abstract::base::calculateSummaryIndiciesForCommits: the id-to-index map
is filled front to back, so a commit receives the index of the last summary
sharing its id; an unmatched id leaves summaryIndex untouched. -/
def calculateSummaryIndiciesForCommits (s : State) : State :=
  { s with commits := s.commits.map (fun c =>
      match (s.summaries.enum.filter (fun p => p.2.id == c.id)).getLast? with
      | some p => { c with summaryIndex := p.1 }
      | none => c) }

/-- The rename-detection state of calculateFileNodes: the file-to-commits
buckets, the files marked for removal, and the rename history. -/
structure RenameState where
  buckets : List (String × List Commit)
  mark : List String
  hist : List (String × List String)

/-- The per-commit rename scan of calculateFileNodes: each deleted hunk is
matched against the first remaining added hunk with equal line numbers; on
a match the deleted file's bucket is appended to the added file's bucket,
the deleted path is marked for removal and recorded in the rename history,
and the added hunk is consumed. -/
def renameScan (st : RenameState) (c : Commit) : RenameState :=
  let removed := c.hunks.filter (fun h => h.changeType == "deleted")
  let added := c.hunks.filter (fun h => h.changeType == "added")
  let res := removed.foldl
    (fun (st2 : RenameState × List Hunk) r =>
      match st2.2.findIdx? (fun a => r.oldStart == a.newStart && r.oldLines == a.newLines) with
      | some j =>
          let a := (st2.2.get? j).getD r
          let buckets' := assocAppendList st2.1.buckets a.file (assocGet st2.1.buckets r.file)
          ({ buckets := buckets',
             mark := st2.1.mark ++ [r.file],
             hist := assocAppend st2.1.hist a.file r.file },
           st2.2.eraseIdx j)
      | none => st2)
    (st, added)
  res.1

/-- abstract::base::calculateFileNodes: group commits by touched file,
merge renamed paths, synthesise one file definition per surviving bucket,
and re-run the statistics (which, as in the source, only touch the symbol
definition table). -/
def calculateFileNodes (s : State) : State :=
  let f2c := s.commits.foldl
    (fun m c => c.hunks.foldl (fun m h => assocAppend m h.file c) m)
    ([] : List (String × List Commit))
  let rn := s.commits.foldl renameScan { buckets := f2c, mark := [], hist := [] }
  let surviving := rn.mark.foldl (fun m k => m.filter (fun p => p.1 != k)) rn.buckets
  let newFiles := surviving.map (fun p =>
    { defaultDefn with
        symbol := p.1,
        history := assocGet rn.hist p.1,
        connections := p.2.map (fun c =>
          ⟨c.summaryIndex, calculateConnectionWeight c.summaryIndex s.totalSummaries⟩) })
  calculateChronicPoints (calculateOccurrences { s with files := s.files ++ newFiles })

/-- abstract::base::processCommits. -/
def processCommits (s : State) (input : List Commit) : State :=
  let s1 := { s with commits := input, totalCommits := input.length }
  calculateFileNodes (calculateSummaryIndiciesForCommits s1)

/-! ## Concrete inputs used by the evaluation theorems -/

/-- A summary carrying one ctag symbol list (ids and messages are unused by
the statistics paths exercised here). -/
def mkSummary (l : List String) : Summary :=
  { id := "", ctagDefinitions := l, regexDefinitions := [], timeIndex := 0 }

/-- Stand-in for std::sqrt in concrete evaluations; every evaluation below
stays on code paths that never call it. -/
def sqAbs : ℚ → ℚ := fun x => x

/-- Three summaries introducing a, b, c one per time slot. -/
def bandInput : List Summary := [mkSummary ["a"], mkSummary ["b"], mkSummary ["c"]]

/-- The engine after ingesting `bandInput`. -/
def bandState : State := processSummaries initState bandInput

/-- Four summaries: a, b, c, c.  The float weights 0.25, 0.5, 0.75, 1.0 and
their sum 2.5 are exact; CommitFrequency = 1/10, 1/5, 7/10 for a, b, c and
chronicPoint = 0, 1/3, 6/7.  Every comparison of the chronic and occurrence
walks (sort order, and each gap against its pass's mean gap: 1/3 vs 3/7 and
11/21 vs 3/7 chronic, 1/10 vs 3/10 and 1/2 vs 3/10 occurrence) is decided
with relative float margin ≥ 0.18, far above single-precision rounding, so
the program's float branches coincide with the exact ones on this input. -/
def bandInput2 : List Summary :=
  [mkSummary ["a"], mkSummary ["b"], mkSummary ["c"], mkSummary ["c"]]

/-- The engine after ingesting `bandInput2`. -/
def bandState2 : State := processSummaries initState bandInput2

/-- A commit with no hunks, used to reach a state whose commit list is
non-empty. -/
def soloCommit : Commit := { id := "c0", hunks := [], summaryIndex := 0 }

/-- The definition the ingest of `bandInput` produces for symbol a. -/
def bandDefnA : Defn :=
  { symbol := "a", connections := [⟨0, 1/3⟩], referenced := [], history := [],
    CommitFrequency := 1/6, ClusterFrequency := 0, chronicPoint := some 0, fileVector := 0 }

/-- Two aliases of one normalised symbol sharing summary 0, plus one
unrelated symbol. -/
def aliasInput : List Summary := [mkSummary ["a_b", "ab"], mkSummary ["x"]]

/-- Scenario 4 input: aliases my_func, MyFunc, myFunc in insertion order. -/
def lokiInput : List Summary :=
  [mkSummary ["my_func"], mkSummary ["MyFunc"], mkSummary ["myFunc"]]

/-- The definition table after ingesting `lokiInput`. -/
def lokiTbl : DefMap := (processSummaries initState lokiInput).definitions

/-! ## Claim theorems -/

/-- Claim C10: cluster() clears the cluster list before any pass, so its
result — in particular the list getClusters returns — is independent of
whatever clusters a previous invocation had published. -/
theorem claim_C10_cluster_clears_first (sq : ℚ → ℚ) (s : State) (cs : List CNode) :
    getClusters (cluster sq { s with clusters := cs }) =
      getClusters (cluster sq { s with clusters := [] }) ∧
    cluster sq { s with clusters := cs } = cluster sq s :=
  ⟨rfl, rfl⟩

/-- Claim C7 (amended): clear() empties the definition table, the summary
list and the cluster list and resets the summary count — but it leaves the
commit list, the file list and the commit count untouched. -/
theorem claim_C7_clear_partial (s : State) :
    (clear s).definitions = [] ∧ (clear s).summaries = [] ∧ (clear s).clusters = [] ∧
    (clear s).totalSummaries = 0 ∧ (clear s).commits = s.commits ∧
    (clear s).files = s.files ∧ (clear s).totalCommits = s.totalCommits :=
  ⟨rfl, rfl, rfl, rfl, rfl, rfl, rfl⟩

/-- Claim C7 (counterexample): after processing one commit, clear() does
not empty the commit list — the claim's "the commit list … all empty" fails. -/
theorem claim_C7_counterexample :
    (clear (processCommits (processSummaries initState []) [soloCommit])).commits =
      [soloCommit] ∧
    (clear (processCommits (processSummaries initState []) [soloCommit])).commits ≠ [] := by
  with_unfolding_all decide

/-- Claim C8: on empty input the statistics record is all zeros, cluster()
leaves the engine unchanged and publishes nothing, and all four metrics
return 0; every operation is a total function of the state. -/
theorem claim_C8_empty_input (sq : ℚ → ℚ) :
    getStatistics (processSummaries initState []) =
      { totalDefinitions := 0, totalCommits := 0, totalConnections := 0,
        averageOccurrence := 0, averageChronicPoint := 0,
        averageConnectionsPerDefinition := 0 } ∧
    cluster sq (processSummaries initState []) = processSummaries initState [] ∧
    getClusters (cluster sq (processSummaries initState [])) = [] ∧
    getEntropy sq (processSummaries initState []) = 0 ∧
    getVariance sq (processSummaries initState []) = 0 ∧
    getAverageClusterSize (processSummaries initState []) = 0 ∧
    getSilhouetteScore sq (processSummaries initState []) = 0 :=
  ⟨rfl, rfl, rfl, rfl, rfl, rfl, rfl⟩

/-- Claim C2 (code-bug evidence): on `bandInput` the chronic walk absorbs
a and b into the current cluster (their ClusterFrequency is incremented)
but ends without publishing it — the cluster list stays empty although the
trailing current cluster is non-empty.  Only the resonance-hub pass has the
trailing publication. -/
theorem claim_C2_chronic_trailing_cluster_dropped :
    (chronicClustering bandState).clusters.length = 0 ∧
    ((lookupTbl (chronicClustering bandState).definitions "a").getD defaultDefn).ClusterFrequency = 1 ∧
    ((lookupTbl (chronicClustering bandState).definitions "b").getD defaultDefn).ClusterFrequency = 1 := by
  with_unfolding_all decide

/-- Claim C3 (code-bug evidence): after processSummaries over exactly one
summary containing symbol a, the chronicPoint of a is non-finite (`none`
models the float NaN produced by the unguarded division by N−1 = 0), not 0
as the claim states. -/
theorem claim_C3_chronic_nan_single_summary :
    ((lookupTbl (processSummaries initState [mkSummary ["a"]]).definitions "a").getD
        defaultDefn).chronicPoint = none ∧
    ((lookupTbl (processSummaries initState [mkSummary ["a"]]).definitions "a").getD
        defaultDefn).chronicPoint ≠ some 0 := by
  with_unfolding_all decide

/-- Claim C4 (counterexample): with one summary whose symbol list is
[a, a], the repeated occurrence accumulates onto the same connection; the
sum of a's connection weights is 2 while maxPossibleWeight = 1, and
commitFrequency = 2 lies outside [0,1] — the claim fails on repeat inputs. -/
theorem claim_C4_counterexample :
    sumWeights ((lookupTbl (processSummaries initState [mkSummary ["a", "a"]]).definitions
        "a").getD defaultDefn) = 2 ∧
    maxPossibleWeight ([mkSummary ["a", "a"]] : List Summary).length = 1 ∧
    ((lookupTbl (processSummaries initState [mkSummary ["a", "a"]]).definitions "a").getD
        defaultDefn).CommitFrequency = 2 ∧
    ¬ ((lookupTbl (processSummaries initState [mkSummary ["a", "a"]]).definitions "a").getD
        defaultDefn).CommitFrequency ≤ 1 := by
  with_unfolding_all decide

/-- Claim C5 (code-bug evidence): running the full cluster() pipeline on
`bandInput2` leaves definition a with ClusterFrequency = 2 — absorbed by
the chronic band (gap 1/3 ≤ mean gap 3/7) and again by the occurrence band
(gap 1/10 ≤ mean gap 3/10) — outside the documented [0,1] range; the
counter is incremented per absorbing cluster and never normalised.  Every
branch of both walks on this input is decided with relative float margin
≥ 0.18 (see `bandInput2`), so the exact evaluation matches the program. -/
theorem claim_C5_cluster_frequency_two :
    ((lookupTbl (cluster sqAbs bandState2).definitions "a").getD defaultDefn).ClusterFrequency = 2 ∧
    ¬ ((lookupTbl (cluster sqAbs bandState2).definitions "a").getD
        defaultDefn).ClusterFrequency ≤ 1 := by
  with_unfolding_all decide

/-- Claim C6 (counterexample): after loki clustering the surviving alias ab
carries the connection index list [0, 0] — folding the aliases' connection
lists duplicates the shared summary index, so the no-duplicates invariant
fails at the loki stage. -/
theorem claim_C6_counterexample :
    (((lookupTbl (lokiClustering (processSummaries initState aliasInput)).definitions
        "ab").getD defaultDefn).connections.map (fun c => c.Index)) = [0, 0] ∧
    ¬ (((lookupTbl (lokiClustering (processSummaries initState aliasInput)).definitions
        "ab").getD defaultDefn).connections.map (fun c => c.Index)).Nodup := by
  with_unfolding_all decide

/-! ## Helper lemmas -/

theorem foldl_add_map (f : α → ℚ) :
    ∀ (l : List α) (a : ℚ), l.foldl (fun s x => s + f x) a = a + (l.map f).sum := by
  intro l
  induction l with
  | nil => simp
  | cons x xs ih => intro a; simp [ih, add_assoc]

theorem sublist_sum_le {l1 l2 : List ℚ} (h : l1.Sublist l2) (h0 : ∀ x ∈ l2, 0 ≤ x) :
    l1.sum ≤ l2.sum := by
  induction h with
  | slnil => simp
  | cons y hs ih =>
      have hy : 0 ≤ y := h0 y (by simp)
      have := ih (fun x hx => h0 x (by simp [hx]))
      simp only [List.sum_cons]
      linarith
  | cons₂ y hs ih =>
      have := ih (fun x hx => h0 x (by simp [hx]))
      simp only [List.sum_cons]
      linarith

theorem nodup_bounded_map_sum_le (f : Nat → ℚ) (hf : ∀ i, 0 ≤ f i)
    (L : List Nat) (N : Nat) (hnd : L.Nodup) (hlt : ∀ i ∈ L, i < N) :
    (L.map f).sum ≤ ((List.range N).map f).sum := by
  have hsub : L ⊆ List.range N := fun i hi => List.mem_range.mpr (hlt i hi)
  obtain ⟨l', hperm, hsl⟩ := hnd.subperm hsub
  calc (L.map f).sum = (l'.map f).sum := ((hperm.map f).sum_eq).symm
    _ ≤ ((List.range N).map f).sum := by
        refine sublist_sum_le (hsl.map f) ?_
        intro x hx
        obtain ⟨i, _, rfl⟩ := List.mem_map.mp hx
        exact hf i

theorem calculateConnectionWeight_pos (i N : Nat) : 0 < calculateConnectionWeight i N := by
  unfold calculateConnectionWeight
  split
  · norm_num
  · apply div_pos
    · positivity
    · have : 0 < N := by omega
      exact_mod_cast this

theorem maxPossibleWeight_eq_sum (N : Nat) :
    maxPossibleWeight N = ((List.range N).map (fun i => calculateConnectionWeight i N)).sum := by
  unfold maxPossibleWeight
  simpa using foldl_add_map (fun i => calculateConnectionWeight i N) (List.range N) 0

theorem maxPossibleWeight_pos {N : Nat} (h : 1 ≤ N) : 0 < maxPossibleWeight N := by
  rw [maxPossibleWeight_eq_sum]
  apply List.sum_pos
  · intro x hx
    obtain ⟨i, _, rfl⟩ := List.mem_map.mp hx
    exact calculateConnectionWeight_pos i N
  · simp only [ne_eq, List.map_eq_nil_iff, List.range_eq_nil]
    omega

theorem sumWeights_eq (d : Defn) : sumWeights d = (d.connections.map (fun c => c.weight)).sum := by
  unfold sumWeights
  simpa using foldl_add_map (fun c : Conn => c.weight) d.connections 0

/-- addConnection appends a fresh pair when no existing connection carries
the index. -/
theorem addConnection_eq_append {conns : List Conn} {t : Nat}
    (h : ∀ c ∈ conns, c.Index ≠ t) (w : ℚ) :
    addConnection conns t w = conns ++ [⟨t, w⟩] := by
  induction conns with
  | nil => rfl
  | cons c rest ih =>
      have hc : c.Index ≠ t := h c (by simp)
      simp only [addConnection, if_neg hc, List.cons_append, List.cons.injEq, true_and]
      exact ih (fun c' hc' => h c' (by simp [hc']))

/-- The index list of addConnection: unchanged when the index is already
present, extended by it otherwise. -/
theorem addConnection_map_index (conns : List Conn) (t : Nat) (w : ℚ) :
    (addConnection conns t w).map (fun c => c.Index) =
      if t ∈ conns.map (fun c => c.Index) then conns.map (fun c => c.Index)
      else conns.map (fun c => c.Index) ++ [t] := by
  induction conns with
  | nil => simp [addConnection]
  | cons c rest ih =>
      by_cases hc : c.Index = t
      · simp [addConnection, hc]
      · simp only [addConnection, if_neg hc, List.map_cons, ih]
        by_cases hm : t ∈ rest.map (fun c => c.Index)
        · simp [hm, Ne.symm hc]
        · simp [hm, Ne.symm hc]

theorem mem_updateTbl {t : DefMap} {k : String} {f : Defn → Defn} {p : String × Defn}
    (hp : p ∈ updateTbl t k f) :
    ∃ q ∈ t, p = (if q.1 == k then (q.1, f q.2) else q) := by
  unfold updateTbl at hp
  obtain ⟨q, hq, rfl⟩ := List.mem_map.mp hp
  exact ⟨q, hq, rfl⟩

/-- addDefinition keeps every definition's connection indices duplicate
free and inside the bound, provided the added index is. -/
theorem addDefinition_indices {t : DefMap} {b i : Nat} (hi : i < b)
    (h : ∀ p ∈ t, ((p.2.connections.map (fun c => c.Index)).Nodup ∧
         ∀ c ∈ p.2.connections, c.Index < b))
    (sym : String) (w : ℚ) :
    ∀ p ∈ addDefinition t sym i w,
      ((p.2.connections.map (fun c => c.Index)).Nodup ∧
       ∀ c ∈ p.2.connections, c.Index < b) := by
  have h' : ∀ p ∈ (if (lookupTbl t sym).isSome then t
                   else t ++ [(sym, { defaultDefn with symbol := sym })]),
      ((p.2.connections.map (fun c => c.Index)).Nodup ∧
       ∀ c ∈ p.2.connections, c.Index < b) := by
    split
    · exact h
    · intro p hp
      rcases List.mem_append.mp hp with hp | hp
      · exact h p hp
      · simp only [List.mem_singleton] at hp
        subst hp
        simp [defaultDefn]
  intro p hp
  unfold addDefinition at hp
  obtain ⟨q, hq, hpe⟩ := mem_updateTbl hp
  have hq' := h' q hq
  by_cases hqk : (q.1 == sym) = true
  · rw [if_pos hqk] at hpe
    subst hpe
    simp only
    rw [addConnection_map_index]
    constructor
    · split
      · exact hq'.1
      · rename_i hmem
        simp only [List.nodup_append, List.nodup_cons, List.nodup_nil, and_true,
          List.not_mem_nil, not_false_iff, true_and, List.disjoint_singleton]
        exact ⟨hq'.1, hmem⟩
    · intro c hc
      have hmm : c.Index ∈ (addConnection q.2.connections i w).map (fun c => c.Index) :=
        List.mem_map_of_mem _ hc
      rw [addConnection_map_index] at hmm
      have : c.Index ∈ q.2.connections.map (fun c => c.Index) ∨ c.Index = i := by
        split at hmm
        · exact Or.inl hmm
        · rcases List.mem_append.mp hmm with hm | hm
          · exact Or.inl hm
          · simp only [List.mem_singleton] at hm
            exact Or.inr hm
      rcases this with hm | hm
      · obtain ⟨c', hc', he⟩ := List.mem_map.mp hm
        rw [← he]
        exact (hq'.2 c' hc')
      · omega
  · rw [if_neg hqk] at hpe
    subst hpe
    exact hq'

theorem foldl_addDefinition_indices {b i : Nat} (hi : i < b) (w : ℚ) :
    ∀ (syms : List String) (t : DefMap),
      (∀ p ∈ t, ((p.2.connections.map (fun c => c.Index)).Nodup ∧
        ∀ c ∈ p.2.connections, c.Index < b)) →
      ∀ p ∈ syms.foldl (fun tb sym => addDefinition tb sym i w) t,
        ((p.2.connections.map (fun c => c.Index)).Nodup ∧
         ∀ c ∈ p.2.connections, c.Index < b) := by
  intro syms
  induction syms with
  | nil => intro t h; exact h
  | cons sym rest ih =>
      intro t h
      exact ih _ (addDefinition_indices hi h sym w)

theorem processSummary_indices {b i n : Nat} (hi : i < b) {t : DefMap} (sm : Summary)
    (h : ∀ p ∈ t, ((p.2.connections.map (fun c => c.Index)).Nodup ∧
        ∀ c ∈ p.2.connections, c.Index < b)) :
    ∀ p ∈ processSummary t sm i n,
      ((p.2.connections.map (fun c => c.Index)).Nodup ∧
       ∀ c ∈ p.2.connections, c.Index < b) := by
  unfold processSummary
  exact foldl_addDefinition_indices hi _ _ t h

theorem ingest_indices (n : Nat) :
    ∀ (input : List Summary) (b : Nat) (t : DefMap),
      (∀ p ∈ t, ((p.2.connections.map (fun c => c.Index)).Nodup ∧
        ∀ c ∈ p.2.connections, c.Index < b)) →
      ∀ p ∈ (List.enumFrom b input).foldl (fun tb q => processSummary tb q.2 q.1 n) t,
        ((p.2.connections.map (fun c => c.Index)).Nodup ∧
         ∀ c ∈ p.2.connections, c.Index < b + input.length) := by
  intro input
  induction input with
  | nil => intro b t h; simpa using h
  | cons sm rest ih =>
      intro b t h
      have hmono : ∀ p ∈ t, ((p.2.connections.map (fun c => c.Index)).Nodup ∧
          ∀ c ∈ p.2.connections, c.Index < b + 1) :=
        fun p hp => ⟨(h p hp).1, fun c hc => Nat.lt_succ_of_lt ((h p hp).2 c hc)⟩
      have hstep := processSummary_indices (b := b + 1) (i := b) (n := n) (by omega) sm hmono
      have := ih (b + 1) _ hstep
      simp only [List.enumFrom_cons, List.foldl_cons]
      have heq : b + 1 + rest.length = b + (sm :: rest).length := by simp; omega
      rw [← heq]
      exact this

theorem calculateOccurrences_mem {s : State} {p : String × Defn}
    (hp : p ∈ (calculateOccurrences s).definitions) :
    ∃ q ∈ s.definitions, p.1 = q.1 ∧ p.2.connections = q.2.connections ∧
      p.2.CommitFrequency = (if s.totalSummaries = 0 then q.2.CommitFrequency
        else if 0 < maxPossibleWeight s.totalSummaries
        then sumWeights q.2 / maxPossibleWeight s.totalSummaries else 0) := by
  unfold calculateOccurrences at hp
  by_cases h : s.totalSummaries = 0
  · rw [if_pos h] at hp
    exact ⟨p, hp, rfl, rfl, by simp [h]⟩
  · rw [if_neg h] at hp
    simp only at hp
    obtain ⟨q, hq, rfl⟩ := List.mem_map.mp hp
    exact ⟨q, hq, rfl, rfl, by simp [h]⟩

theorem calculateChronicPoints_mem {s : State} {p : String × Defn}
    (hp : p ∈ (calculateChronicPoints s).definitions) :
    ∃ q ∈ s.definitions, p.1 = q.1 ∧ p.2.connections = q.2.connections ∧
      p.2.CommitFrequency = q.2.CommitFrequency := by
  unfold calculateChronicPoints at hp
  by_cases h : s.totalSummaries = 0
  · rw [if_pos h] at hp
    exact ⟨p, hp, rfl, rfl, rfl⟩
  · rw [if_neg h] at hp
    simp only at hp
    obtain ⟨q, hq, rfl⟩ := List.mem_map.mp hp
    exact ⟨q, hq, rfl, rfl, rfl⟩

theorem processSummaries_unfold (s : State) (input : List Summary) :
    processSummaries s input =
      calculateChronicPoints (calculateOccurrences
        { s with
            summaries := input.enum.map (fun p => { p.2 with timeIndex := p.1 }),
            totalSummaries := input.length,
            definitions := (List.enumFrom 0 input).foldl
              (fun tb p => processSummary tb p.2 p.1 input.length) s.definitions }) := rfl

/-- Claim C6 (amended): after ingest (processSummaries from a fresh
engine), every definition's connection index sequence is duplicate free and
every index is a valid summary index below N.  (The invariant does not
survive loki clustering — see the counterexample — nor file-node
synthesis.) -/
theorem claim_C6_after_ingest (input : List Summary) :
    ∀ p ∈ (processSummaries initState input).definitions,
      ((p.2.connections.map (fun c => c.Index)).Nodup ∧
       ∀ c ∈ p.2.connections, c.Index < input.length) := by
  intro p hp
  rw [processSummaries_unfold] at hp
  obtain ⟨q, hq, _, hconn, _⟩ := calculateChronicPoints_mem hp
  obtain ⟨r, hr, _, hconn2, _⟩ := calculateOccurrences_mem hq
  have := ingest_indices input.length input 0 [] (by simp) r hr
  rw [hconn, hconn2]
  simpa using this

/-- Witness for claim C6 at a concrete input: the entry of symbol a after
ingesting `bandInput` satisfies the amended invariant. -/
theorem claim_C6_after_ingest_witness :
    ("a", bandDefnA) ∈ (processSummaries initState bandInput).definitions ∧
    ((bandDefnA.connections.map (fun c => c.Index)).Nodup ∧
     ∀ c ∈ bandDefnA.connections, c.Index < bandInput.length) :=
  ⟨by with_unfolding_all decide,
   claim_C6_after_ingest bandInput ("a", bandDefnA) (by with_unfolding_all decide)⟩

theorem sumWeights_congr {d1 d2 : Defn} (h : d1.connections = d2.connections) :
    sumWeights d1 = sumWeights d2 := by
  unfold sumWeights
  rw [h]

/-- addDefinition with the canonical weight keeps every connection's weight
equal to the weight function of its index, provided no definition already
carries the current index unless its key was already processed in this
summary and the new key was not. -/
theorem addDefinition_weights {tb : DefMap} {N i : Nat} {done : List String}
    (h : ∀ p ∈ tb, ∀ c ∈ p.2.connections,
        (c.Index < i ∨ (c.Index = i ∧ p.1 ∈ done)) ∧
        c.weight = calculateConnectionWeight c.Index N)
    {sym : String} (hsym : sym ∉ done) :
    ∀ p ∈ addDefinition tb sym i (calculateConnectionWeight i N), ∀ c ∈ p.2.connections,
        (c.Index < i ∨ (c.Index = i ∧ p.1 ∈ done ++ [sym])) ∧
        c.weight = calculateConnectionWeight c.Index N := by
  have h' : ∀ p ∈ (if (lookupTbl tb sym).isSome then tb
                   else tb ++ [(sym, { defaultDefn with symbol := sym })]),
      ∀ c ∈ p.2.connections,
        (c.Index < i ∨ (c.Index = i ∧ p.1 ∈ done)) ∧
        c.weight = calculateConnectionWeight c.Index N := by
    split
    · exact h
    · intro p hp
      rcases List.mem_append.mp hp with hp | hp
      · exact h p hp
      · simp only [List.mem_singleton] at hp
        subst hp
        simp [defaultDefn]
  intro p hp
  unfold addDefinition at hp
  obtain ⟨q, hq, hpe⟩ := mem_updateTbl hp
  have hq' := h' q hq
  by_cases hqk : (q.1 == sym) = true
  · have hqs : q.1 = sym := eq_of_beq hqk
    rw [if_pos hqk] at hpe
    subst hpe
    have hne : ∀ c ∈ q.2.connections, c.Index ≠ i := by
      intro c hc hci
      rcases (hq' c hc).1 with hlt | ⟨_, hdone⟩
      · omega
      · rw [hqs] at hdone
        exact hsym hdone
    simp only
    rw [addConnection_eq_append hne]
    intro c hc
    rcases List.mem_append.mp hc with hc | hc
    · refine ⟨?_, (hq' c hc).2⟩
      rcases (hq' c hc).1 with hlt | ⟨hci, _⟩
      · exact Or.inl hlt
      · exact absurd hci (hne c hc)
    · simp only [List.mem_singleton] at hc
      subst hc
      exact ⟨Or.inr ⟨rfl, by simp [hqs]⟩, rfl⟩
  · rw [if_neg hqk] at hpe
    subst hpe
    intro c hc
    refine ⟨?_, (hq' c hc).2⟩
    rcases (hq' c hc).1 with hlt | ⟨hci, hdone⟩
    · exact Or.inl hlt
    · exact Or.inr ⟨hci, by simp [hdone]⟩

theorem foldl_addDefinition_weights {N i : Nat} :
    ∀ (syms : List String) (tb : DefMap) (done : List String),
      (done ++ syms).Nodup →
      (∀ p ∈ tb, ∀ c ∈ p.2.connections,
        (c.Index < i ∨ (c.Index = i ∧ p.1 ∈ done)) ∧
        c.weight = calculateConnectionWeight c.Index N) →
      ∀ p ∈ syms.foldl
          (fun tb sym => addDefinition tb sym i (calculateConnectionWeight i N)) tb,
        ∀ c ∈ p.2.connections,
          (c.Index < i ∨ (c.Index = i ∧ p.1 ∈ done ++ syms)) ∧
          c.weight = calculateConnectionWeight c.Index N := by
  intro syms
  induction syms with
  | nil => intro tb done _ h; simpa using h
  | cons sym rest ih =>
      intro tb done hnd h
      have hdisj : done.Disjoint (sym :: rest) := (List.nodup_append.mp hnd).2.2
      have hsym : sym ∉ done := fun hmem => hdisj hmem (List.mem_cons_self sym rest)
      have hstep := addDefinition_weights h hsym
      have hnd' : ((done ++ [sym]) ++ rest).Nodup := by
        rw [List.append_assoc]
        simpa using hnd
      have := ih _ (done ++ [sym]) hnd' hstep
      simp only [List.foldl_cons]
      intro p hp c hc
      have hres := this p hp c hc
      rw [List.append_assoc] at hres
      simpa using hres

theorem processSummary_weights {N i : Nat} {tb : DefMap} (sm : Summary)
    (hnd : ((sm.ctagDefinitions ++ sm.regexDefinitions).filter (fun s => s != "")).Nodup)
    (h : ∀ p ∈ tb, ∀ c ∈ p.2.connections,
        c.Index < i ∧ c.weight = calculateConnectionWeight c.Index N) :
    ∀ p ∈ processSummary tb sm i N, ∀ c ∈ p.2.connections,
      c.Index < i + 1 ∧ c.weight = calculateConnectionWeight c.Index N := by
  have h0 : ∀ p ∈ tb, ∀ c ∈ p.2.connections,
      (c.Index < i ∨ (c.Index = i ∧ p.1 ∈ ([] : List String))) ∧
      c.weight = calculateConnectionWeight c.Index N :=
    fun p hp c hc => ⟨Or.inl (h p hp c hc).1, (h p hp c hc).2⟩
  have := foldl_addDefinition_weights
    ((sm.ctagDefinitions ++ sm.regexDefinitions).filter (fun s => s != "")) tb []
    (by simpa using hnd) h0
  intro p hp c hc
  have hres := this p hp c hc
  refine ⟨?_, hres.2⟩
  rcases hres.1 with hlt | ⟨hci, _⟩ <;> omega

theorem ingest_weights (N : Nat) :
    ∀ (input : List Summary) (b : Nat) (tb : DefMap),
      (∀ sm ∈ input,
        ((sm.ctagDefinitions ++ sm.regexDefinitions).filter (fun s => s != "")).Nodup) →
      (∀ p ∈ tb, ∀ c ∈ p.2.connections,
        c.Index < b ∧ c.weight = calculateConnectionWeight c.Index N) →
      ∀ p ∈ (List.enumFrom b input).foldl (fun tb q => processSummary tb q.2 q.1 N) tb,
        ∀ c ∈ p.2.connections,
          c.Index < b + input.length ∧ c.weight = calculateConnectionWeight c.Index N := by
  intro input
  induction input with
  | nil => intro b tb _ h; simpa using h
  | cons sm rest ih =>
      intro b tb hnd h
      have hstep := processSummary_weights (N := N) (i := b) sm (hnd sm (by simp)) h
      have := ih (b + 1) _ (fun sm' hm => hnd sm' (by simp [hm])) hstep
      simp only [List.enumFrom_cons, List.foldl_cons]
      have heq : b + 1 + rest.length = b + (sm :: rest).length := by simp; omega
      rw [← heq]
      exact this

/-- Claim C4 (amended): for inputs in which no (non-empty) symbol occurs
more than once within a single summary, every definition's connection
weight sum after processSummaries is at most maxPossibleWeight and its
commitFrequency lies in [0, 1].  (With in-summary repeats both bounds can
fail — see the counterexample.) -/
theorem claim_C4_amended (input : List Summary)
    (hn : ∀ sm ∈ input,
      ((sm.ctagDefinitions ++ sm.regexDefinitions).filter (fun s => s != "")).Nodup) :
    ∀ p ∈ (processSummaries initState input).definitions,
      sumWeights p.2 ≤ maxPossibleWeight input.length ∧
      0 ≤ p.2.CommitFrequency ∧ p.2.CommitFrequency ≤ 1 := by
  intro p hp
  rw [processSummaries_unfold] at hp
  obtain ⟨q, hq, _, hconn, hcf⟩ := calculateChronicPoints_mem hp
  obtain ⟨r, hr, _, hconn2, hcf2⟩ := calculateOccurrences_mem hq
  have hW := ingest_weights input.length input 0 [] hn (by simp) r hr
  have hI := ingest_indices input.length input 0 [] (by simp) r hr
  have hlen : input ≠ [] := by
    intro he
    subst he
    simp [initState, List.enumFrom] at hr
  have hNpos : 1 ≤ input.length := by
    cases input with
    | nil => exact absurd rfl hlen
    | cons _ _ => simp
  have hmaxpos : 0 < maxPossibleWeight input.length := maxPossibleWeight_pos hNpos
  have hsumr : sumWeights r.2 ≤ maxPossibleWeight input.length := by
    rw [sumWeights_eq]
    have hmapw : r.2.connections.map (fun c => c.weight)
        = (r.2.connections.map (fun c => c.Index)).map
            (fun j => calculateConnectionWeight j input.length) := by
      rw [List.map_map]
      exact List.map_congr_left (fun c hc => by simpa using (hW c hc).2)
    rw [hmapw, maxPossibleWeight_eq_sum]
    refine nodup_bounded_map_sum_le _
      (fun j => le_of_lt (calculateConnectionWeight_pos j input.length)) _ _
      (by simpa using hI.1) ?_
    intro j hj
    obtain ⟨c, hc, rfl⟩ := List.mem_map.mp hj
    simpa using (hW c hc).1
  have hsumr0 : 0 ≤ sumWeights r.2 := by
    rw [sumWeights_eq]
    refine List.sum_nonneg ?_
    intro x hx
    obtain ⟨c, hc, rfl⟩ := List.mem_map.mp hx
    rw [(hW c hc).2]
    exact le_of_lt (calculateConnectionWeight_pos c.Index input.length)
  have hsp : sumWeights p.2 = sumWeights r.2 :=
    sumWeights_congr (by rw [hconn, hconn2])
  have h0 : ¬ (input.length = 0) := by omega
  refine ⟨by rw [hsp]; exact hsumr, ?_, ?_⟩
  · rw [hcf, hcf2]
    show (0:ℚ) ≤ (if input.length = 0 then r.2.CommitFrequency
      else if 0 < maxPossibleWeight input.length
      then sumWeights r.2 / maxPossibleWeight input.length else 0)
    rw [if_neg h0, if_pos hmaxpos]
    positivity
  · rw [hcf, hcf2]
    show (if input.length = 0 then r.2.CommitFrequency
      else if 0 < maxPossibleWeight input.length
      then sumWeights r.2 / maxPossibleWeight input.length else 0) ≤ 1
    rw [if_neg h0, if_pos hmaxpos]
    rw [div_le_one hmaxpos]
    exact hsumr

/-- Witness for claim C4 at a concrete input. -/
theorem claim_C4_amended_witness :
    ((∀ sm ∈ bandInput,
        ((sm.ctagDefinitions ++ sm.regexDefinitions).filter (fun s => s != "")).Nodup) ∧
     ("a", bandDefnA) ∈ (processSummaries initState bandInput).definitions) ∧
    (sumWeights bandDefnA ≤ maxPossibleWeight bandInput.length ∧
     0 ≤ bandDefnA.CommitFrequency ∧ bandDefnA.CommitFrequency ≤ 1) :=
  ⟨⟨by decide, by with_unfolding_all decide⟩,
   claim_C4_amended bandInput (by decide) ("a", bandDefnA) (by with_unfolding_all decide)⟩

/-! ## Association-table lemmas for the loki development -/

theorem lookupTbl_cons (q : String × Defn) (rest : DefMap) (k : String) :
    lookupTbl (q :: rest) k = if (q.1 == k) = true then some q.2 else lookupTbl rest k := by
  cases hq : (q.1 == k) with
  | true => simp [lookupTbl, List.find?_cons, hq]
  | false => simp [lookupTbl, List.find?_cons, hq]

theorem updateTbl_cons (q : String × Defn) (rest : DefMap) (k : String) (f : Defn → Defn) :
    updateTbl (q :: rest) k f =
      (if (q.1 == k) = true then (q.1, f q.2) else q) :: updateTbl rest k f := rfl

theorem eraseTbl_cons (q : String × Defn) (rest : DefMap) (k : String) :
    eraseTbl (q :: rest) k =
      if (q.1 == k) = true then eraseTbl rest k else q :: eraseTbl rest k := by
  cases hq : (q.1 == k) with
  | true => simp [eraseTbl, List.filter_cons, hq, eq_of_beq hq]
  | false =>
      have hne : ¬ q.1 = k := fun he => by simp [he] at hq
      simp [eraseTbl, List.filter_cons, hq, hne]

theorem lookup_updateTbl_self (t : DefMap) (k : String) (f : Defn → Defn) :
    lookupTbl (updateTbl t k f) k = (lookupTbl t k).map f := by
  induction t with
  | nil => rfl
  | cons q rest ih =>
      rw [updateTbl_cons]
      by_cases hq : (q.1 == k) = true
      · rw [if_pos hq, lookupTbl_cons, lookupTbl_cons]
        simp [hq]
      · rw [if_neg hq, lookupTbl_cons, lookupTbl_cons, if_neg hq, if_neg hq]
        exact ih

theorem lookup_updateTbl_ne (t : DefMap) {k k' : String} (h : k' ≠ k) (f : Defn → Defn) :
    lookupTbl (updateTbl t k f) k' = lookupTbl t k' := by
  induction t with
  | nil => rfl
  | cons q rest ih =>
      rw [updateTbl_cons]
      by_cases hq : (q.1 == k) = true
      · have hq' : (q.1 == k') = false := by
          have : q.1 = k := eq_of_beq hq
          subst this
          exact beq_false_of_ne (fun he => h he.symm)
        rw [if_pos hq, lookupTbl_cons, lookupTbl_cons]
        simp only [hq']
        rw [if_neg (by simp), if_neg (by simp)]
        exact ih
      · rw [if_neg hq, lookupTbl_cons, lookupTbl_cons]
        by_cases hq' : (q.1 == k') = true
        · rw [if_pos hq', if_pos hq']
        · rw [if_neg hq', if_neg hq']
          exact ih

theorem keys_updateTbl (t : DefMap) (k : String) (f : Defn → Defn) :
    (updateTbl t k f).map Prod.fst = t.map Prod.fst := by
  induction t with
  | nil => rfl
  | cons q rest ih =>
      rw [updateTbl_cons]
      by_cases hq : (q.1 == k) = true
      · rw [if_pos hq]
        simp only [List.map_cons]
        rw [ih]
      · rw [if_neg hq]
        simp only [List.map_cons]
        rw [ih]

theorem lookup_eraseTbl_self (t : DefMap) (k : String) :
    lookupTbl (eraseTbl t k) k = none := by
  induction t with
  | nil => rfl
  | cons q rest ih =>
      rw [eraseTbl_cons]
      by_cases hq : (q.1 == k) = true
      · rw [if_pos hq]
        exact ih
      · rw [if_neg hq, lookupTbl_cons, if_neg hq]
        exact ih

theorem lookup_eraseTbl_ne (t : DefMap) {k k' : String} (h : k' ≠ k) :
    lookupTbl (eraseTbl t k) k' = lookupTbl t k' := by
  induction t with
  | nil => rfl
  | cons q rest ih =>
      rw [eraseTbl_cons]
      by_cases hq : (q.1 == k) = true
      · have hq' : (q.1 == k') = false := by
          have : q.1 = k := eq_of_beq hq
          subst this
          exact beq_false_of_ne (fun he => h he.symm)
        rw [if_pos hq, lookupTbl_cons]
        simp only [hq']
        rw [if_neg (by simp)]
        exact ih
      · rw [if_neg hq, lookupTbl_cons, lookupTbl_cons]
        by_cases hq' : (q.1 == k') = true
        · rw [if_pos hq', if_pos hq']
        · rw [if_neg hq', if_neg hq']
          exact ih

theorem eraseTbl_sublist (t : DefMap) (k : String) : (eraseTbl t k).Sublist t :=
  List.filter_sublist t

theorem lookup_mem {t : DefMap} {k : String} {d : Defn} (h : lookupTbl t k = some d) :
    (k, d) ∈ t := by
  induction t with
  | nil => simp [lookupTbl] at h
  | cons q rest ih =>
      rw [lookupTbl_cons] at h
      by_cases hq : (q.1 == k) = true
      · rw [if_pos hq] at h
        simp only [Option.some.injEq] at h
        have h1 : q.1 = k := eq_of_beq hq
        have : q = (k, d) := by
          cases q
          simp only [Prod.mk.injEq]
          exact ⟨h1, h⟩
        rw [← this]
        exact List.mem_cons_self q rest
      · rw [if_neg hq] at h
        exact List.mem_cons_of_mem q (ih h)

theorem lookup_of_mem_nodup {t : DefMap} (hnd : (t.map Prod.fst).Nodup) {k : String} {d : Defn}
    (h : (k, d) ∈ t) : lookupTbl t k = some d := by
  induction t with
  | nil => simp at h
  | cons q rest ih =>
      rw [List.map_cons, List.nodup_cons] at hnd
      rw [lookupTbl_cons]
      rcases List.mem_cons.mp h with he | hm
      · subst he
        rw [if_pos (by simp)]
      · have hne : q.1 ≠ k := by
          intro hqk
          exact hnd.1 (by
            rw [hqk]
            exact List.mem_map.mpr ⟨(k, d), hm, rfl⟩)
        rw [if_neg (by simpa using hne)]
        exact ih hnd.2 hm

theorem lookup_isSome_of_mem_keys {t : DefMap} {k : String}
    (h : k ∈ t.map Prod.fst) : (lookupTbl t k).isSome := by
  induction t with
  | nil => simp at h
  | cons q rest ih =>
      rw [lookupTbl_cons]
      by_cases hq : (q.1 == k) = true
      · rw [if_pos hq]
        rfl
      · rw [if_neg hq]
        refine ih ?_
        rw [List.map_cons] at h
        rcases List.mem_cons.mp h with he | hm
        · exact absurd (by simp [he]) hq
        · exact hm

theorem lookup_none_of_sublist {t1 t2 : DefMap} {k : String} (h : t1.Sublist t2)
    (hn : lookupTbl t2 k = none) : lookupTbl t1 k = none := by
  unfold lookupTbl at hn ⊢
  rw [Option.map_eq_none', List.find?_eq_none] at hn ⊢
  exact fun p hp => hn p (h.subset hp)

/-! ## classKeys and classList lemmas -/

theorem normal_of_mem_classKeys {t : DefMap} {n k : String} (h : k ∈ classKeys t n) :
    normalSymbol k = n := by
  unfold classKeys at h
  obtain ⟨p, hp, rfl⟩ := List.mem_map.mp h
  exact eq_of_beq (List.mem_filter.mp hp).2

theorem classKeys_sublist_keys (t : DefMap) (n : String) :
    (classKeys t n).Sublist (t.map Prod.fst) :=
  (List.filter_sublist t).map Prod.fst

theorem mem_keys_of_mem_classKeys {t : DefMap} {n k : String} (h : k ∈ classKeys t n) :
    k ∈ t.map Prod.fst :=
  (classKeys_sublist_keys t n).subset h

theorem classKeys_nodup {t : DefMap} (hnd : (t.map Prod.fst).Nodup) (n : String) :
    (classKeys t n).Nodup :=
  hnd.sublist (classKeys_sublist_keys t n)

theorem classList_mem_eq {t : DefMap} {c : String × List String} (hc : c ∈ classList t) :
    c.2 = classKeys t c.1 := by
  unfold classList at hc
  obtain ⟨m, _, rfl⟩ := List.mem_map.mp hc
  rfl

theorem classList_firsts (t : DefMap) :
    (classList t).map Prod.fst = (t.map (fun p => normalSymbol p.1)).dedup := by
  unfold classList
  rw [List.map_map]
  exact List.map_id _

theorem classList_firsts_nodup (t : DefMap) : ((classList t).map Prod.fst).Nodup := by
  rw [classList_firsts]
  exact List.nodup_dedup _

theorem mem_classList_of_len {t : DefMap} {n : String}
    (h : 2 ≤ (classKeys t n).length) : (n, classKeys t n) ∈ classList t := by
  have hne : classKeys t n ≠ [] := by
    intro he
    rw [he] at h
    simp at h
  obtain ⟨k, hk⟩ := List.exists_mem_of_ne_nil _ hne
  have hnorm : normalSymbol k = n := normal_of_mem_classKeys hk
  unfold classKeys at hk
  obtain ⟨p, hp, rfl⟩ := List.mem_map.mp hk
  have hmem : n ∈ t.map (fun p => normalSymbol p.1) := by
    rw [← hnorm]
    exact List.mem_map.mpr ⟨p, (List.mem_filter.mp hp).1, rfl⟩
  unfold classList
  exact List.mem_map.mpr ⟨n, List.mem_dedup.mpr hmem, rfl⟩

theorem split_of_nodup_firsts {α β : Type} {l : List (α × β)} {c : α × β} (hc : c ∈ l)
    (hnd : (l.map Prod.fst).Nodup) :
    ∃ A B, l = A ++ c :: B ∧ (∀ c' ∈ A, c'.1 ≠ c.1) ∧ (∀ c' ∈ B, c'.1 ≠ c.1) := by
  induction l with
  | nil => simp at hc
  | cons x rest ih =>
      rw [List.map_cons, List.nodup_cons] at hnd
      rcases List.mem_cons.mp hc with he | hm
      · subst he
        refine ⟨[], rest, rfl, by simp, ?_⟩
        intro c' hc' he
        exact hnd.1 (he ▸ List.mem_map.mpr ⟨c', hc', rfl⟩)
      · obtain ⟨A, B, heq, hA, hB⟩ := ih hm hnd.2
        refine ⟨x :: A, B, by rw [heq]; rfl, ?_, hB⟩
        intro c' hc'
        rcases List.mem_cons.mp hc' with he | hA'
        · subst he
          intro hx
          exact hnd.1 (hx ▸ List.mem_map.mpr ⟨c, hm, rfl⟩)
        · exact hA c' hA'

/-! ## lokiInherit lemmas -/

theorem lookup_lokiInherit_ne {t : DefMap} {ks : List String} {k : String}
    (h : ∀ inh, ks.getLast? = some inh → k ≠ inh) :
    lookupTbl (lokiInherit t ks) k = lookupTbl t k := by
  unfold lokiInherit
  by_cases hl : ks.length < 2
  · rw [if_pos hl]
  · rw [if_neg hl]
    cases hlast : ks.getLast? with
    | none => rfl
    | some inh =>
        simp only
        exact lookup_updateTbl_ne t (h inh hlast) _

theorem lookup_lokiInherit_symbol (t : DefMap) (ks : List String) (k : String) :
    (lookupTbl (lokiInherit t ks) k).map (fun d => d.symbol) =
      (lookupTbl t k).map (fun d => d.symbol) := by
  unfold lokiInherit
  by_cases hl : ks.length < 2
  · rw [if_pos hl]
  · rw [if_neg hl]
    cases hlast : ks.getLast? with
    | none => rfl
    | some inh =>
        simp only
        by_cases hk : k = inh
        · subst hk
          rw [lookup_updateTbl_self]
          cases lookupTbl t k <;> rfl
        · rw [lookup_updateTbl_ne t hk]

theorem keys_lokiInherit (t : DefMap) (ks : List String) :
    (lokiInherit t ks).map Prod.fst = t.map Prod.fst := by
  unfold lokiInherit
  by_cases hl : ks.length < 2
  · rw [if_pos hl]
  · rw [if_neg hl]
    cases hlast : ks.getLast? with
    | none => rfl
    | some inh =>
        simp only
        exact keys_updateTbl t inh _

theorem lookup_lokiInherit_self {t : DefMap} {ks : List String} {inh : String}
    (hl : ¬ ks.length < 2) (hlast : ks.getLast? = some inh) :
    lookupTbl (lokiInherit t ks) inh = (lookupTbl t inh).map (fun d =>
      { d with
          history := d.history ++ ks.dropLast.map (fun k =>
            ((lookupTbl t k).getD defaultDefn).symbol),
          connections := d.connections ++ (ks.dropLast.map (fun k =>
            ((lookupTbl t k).getD defaultDefn).connections)).flatten }) := by
  unfold lokiInherit
  rw [if_neg hl, hlast]
  simp only
  exact lookup_updateTbl_self t inh _

/-! ## Phase-1 fold lemmas -/

theorem mem_of_getLast?_eq {α : Type} {l : List α} {a : α} (h : l.getLast? = some a) :
    a ∈ l := by
  induction l with
  | nil => simp at h
  | cons x rest ih =>
      cases rest with
      | nil =>
          simp only [List.getLast?_singleton, Option.some.injEq] at h
          simp [h]
      | cons y s =>
          rw [List.getLast?_cons_cons] at h
          exact List.mem_cons_of_mem x (ih h)

theorem inheritFold_preserve {t0 : DefMap} {n : String} :
    ∀ (cs : List (String × List String)),
      (∀ c ∈ cs, c.1 ≠ n ∧ c.2 = classKeys t0 c.1) →
      ∀ (tb : DefMap) (k : String), normalSymbol k = n →
        lookupTbl (cs.foldl (fun tb c => lokiInherit tb c.2) tb) k = lookupTbl tb k := by
  intro cs
  induction cs with
  | nil => intro _ tb k _; rfl
  | cons c rest ih =>
      intro hcs tb k hk
      simp only [List.foldl_cons]
      rw [ih (fun c' hc' => hcs c' (by simp [hc'])) _ k hk]
      apply lookup_lokiInherit_ne
      intro inh hlast he
      have hmem : inh ∈ c.2 := mem_of_getLast?_eq hlast
      rw [(hcs c (by simp)).2] at hmem
      have hni : normalSymbol inh = c.1 := normal_of_mem_classKeys hmem
      subst he
      exact (hcs c (by simp)).1 (by rw [← hni, hk])

theorem inheritFold_symbol :
    ∀ (cs : List (String × List String)) (tb : DefMap) (k : String),
      (lookupTbl (cs.foldl (fun tb c => lokiInherit tb c.2) tb) k).map (fun d => d.symbol) =
        (lookupTbl tb k).map (fun d => d.symbol) := by
  intro cs
  induction cs with
  | nil => intro tb k; rfl
  | cons c rest ih =>
      intro tb k
      simp only [List.foldl_cons]
      rw [ih, lookup_lokiInherit_symbol]

theorem inheritFold_keys :
    ∀ (cs : List (String × List String)) (tb : DefMap),
      (cs.foldl (fun tb c => lokiInherit tb c.2) tb).map Prod.fst = tb.map Prod.fst := by
  intro cs
  induction cs with
  | nil => intro tb; rfl
  | cons c rest ih =>
      intro tb
      simp only [List.foldl_cons]
      rw [ih, keys_lokiInherit]

theorem lokiInherit_lookup_congr {tA t : DefMap} {ks : List String} {k : String}
    (hks : ∀ k' ∈ ks, lookupTbl tA k' = lookupTbl t k')
    (hk : lookupTbl tA k = lookupTbl t k) :
    lookupTbl (lokiInherit tA ks) k = lookupTbl (lokiInherit t ks) k := by
  unfold lokiInherit
  by_cases hl : ks.length < 2
  · rw [if_pos hl, if_pos hl]
    exact hk
  · rw [if_neg hl, if_neg hl]
    cases hlast : ks.getLast? with
    | none => exact hk
    | some inh =>
        simp only
        by_cases hki : k = inh
        · subst hki
          rw [lookup_updateTbl_self, lookup_updateTbl_self, hk]
          have hdrop : ∀ k' ∈ ks.dropLast, lookupTbl tA k' = lookupTbl t k' :=
            fun k' hk' => hks k' ((List.dropLast_sublist ks).subset hk')
          have hhist : ks.dropLast.map (fun k' => ((lookupTbl tA k').getD defaultDefn).symbol)
              = ks.dropLast.map (fun k' => ((lookupTbl t k').getD defaultDefn).symbol) :=
            List.map_congr_left (fun k' hk' => by rw [hdrop k' hk'])
          have hconn : ks.dropLast.map (fun k' => ((lookupTbl tA k').getD defaultDefn).connections)
              = ks.dropLast.map (fun k' => ((lookupTbl t k').getD defaultDefn).connections) :=
            List.map_congr_left (fun k' hk' => by rw [hdrop k' hk'])
          rw [hhist, hconn]
        · rw [lookup_updateTbl_ne tA hki, lookup_updateTbl_ne t hki]
          exact hk

/-- Phase 1 of tableLoki, observed at any key of normalised class `n`:
only the step of class `n` matters. -/
theorem phase1_lookup {t : DefMap} {n k : String} (hk : normalSymbol k = n)
    (hcls : 2 ≤ (classKeys t n).length) :
    lookupTbl ((classList t).foldl (fun tb c => lokiInherit tb c.2) t) k =
      lookupTbl (lokiInherit t (classKeys t n)) k := by
  obtain ⟨A, B, heq, hA, hB⟩ :=
    split_of_nodup_firsts (mem_classList_of_len hcls) (classList_firsts_nodup t)
  have hmemA : ∀ c ∈ A, c ∈ classList t := by
    intro c hc
    rw [heq]
    exact List.mem_append.mpr (Or.inl hc)
  have hmemB : ∀ c ∈ B, c ∈ classList t := by
    intro c hc
    rw [heq]
    exact List.mem_append.mpr (Or.inr (by simp [hc]))
  have hAprop : ∀ c ∈ A, c.1 ≠ n ∧ c.2 = classKeys t c.1 :=
    fun c hc => ⟨hA c hc, classList_mem_eq (hmemA c hc)⟩
  have hBprop : ∀ c ∈ B, c.1 ≠ n ∧ c.2 = classKeys t c.1 :=
    fun c hc => ⟨hB c hc, classList_mem_eq (hmemB c hc)⟩
  rw [heq, List.foldl_append, List.foldl_cons]
  have hAf : ∀ k', normalSymbol k' = n →
      lookupTbl (A.foldl (fun tb c => lokiInherit tb c.2) t) k' = lookupTbl t k' :=
    fun k' hk' => inheritFold_preserve A hAprop t k' hk'
  have hstep : lookupTbl (lokiInherit (A.foldl (fun tb c => lokiInherit tb c.2) t)
      (classKeys t n)) k = lookupTbl (lokiInherit t (classKeys t n)) k := by
    apply lokiInherit_lookup_congr
    · intro k' hk'
      exact hAf k' (normal_of_mem_classKeys hk')
    · exact hAf k hk
  rw [inheritFold_preserve B hBprop _ k hk, hstep]

/-! ## Phase-2 fold lemmas -/

theorem eraseStep_sublist (tb : DefMap) (k : String) : (eraseStep tb k).Sublist tb := by
  unfold eraseStep
  cases h : lookupTbl tb k with
  | none => exact List.Sublist.refl tb
  | some d => exact eraseTbl_sublist tb d.symbol

theorem eraseFold_sublist (l : List String) :
    ∀ tb : DefMap, (l.foldl eraseStep tb).Sublist tb := by
  induction l with
  | nil => intro tb; exact List.Sublist.refl tb
  | cons k rest ih =>
      intro tb
      simp only [List.foldl_cons]
      exact (ih (eraseStep tb k)).trans (eraseStep_sublist tb k)

theorem lokiErase_sublist (tb : DefMap) (ks : List String) :
    (lokiErase tb ks).Sublist tb := by
  unfold lokiErase
  split
  · exact List.Sublist.refl tb
  · exact eraseFold_sublist _ tb

theorem eraseStep_preserve {tb : DefMap} (hent : ∀ p ∈ tb, p.2.symbol = p.1)
    {k k' : String} (hne : k' ≠ k) :
    lookupTbl (eraseStep tb k) k' = lookupTbl tb k' := by
  unfold eraseStep
  cases h : lookupTbl tb k with
  | none => rfl
  | some d =>
      have hd : d.symbol = k := hent (k, d) (lookup_mem h)
      show lookupTbl (eraseTbl tb d.symbol) k' = lookupTbl tb k'
      rw [hd]
      exact lookup_eraseTbl_ne tb hne

theorem eraseFold_preserve {l : List String} :
    ∀ {tb : DefMap}, (∀ p ∈ tb, p.2.symbol = p.1) → ∀ {k' : String}, k' ∉ l →
      lookupTbl (l.foldl eraseStep tb) k' = lookupTbl tb k' := by
  induction l with
  | nil => intro tb _ k' _; rfl
  | cons k rest ih =>
      intro tb hent k' hk'
      simp only [List.foldl_cons]
      have hne : k' ≠ k := fun he => hk' (by simp [he])
      rw [ih (fun p hp => hent p ((eraseStep_sublist tb k).subset hp))
          (fun hm => hk' (by simp [hm]))]
      exact eraseStep_preserve hent hne

theorem lokiErase_preserve {tb : DefMap} {ks : List String}
    (hent : ∀ p ∈ tb, p.2.symbol = p.1) {k' : String} (h : k' ∉ ks.dropLast) :
    lookupTbl (lokiErase tb ks) k' = lookupTbl tb k' := by
  unfold lokiErase
  split
  · rfl
  · exact eraseFold_preserve hent h

theorem eraseFold_mem_none {l : List String} :
    ∀ {tb : DefMap}, (∀ p ∈ tb, p.2.symbol = p.1) → l.Nodup →
      (∀ k ∈ l, (lookupTbl tb k).isSome) →
      ∀ k ∈ l, lookupTbl (l.foldl eraseStep tb) k = none := by
  induction l with
  | nil => simp
  | cons k0 rest ih =>
      intro tb hent hnd hpres k hk
      simp only [List.foldl_cons]
      obtain ⟨d, hd⟩ := Option.isSome_iff_exists.mp (hpres k0 (by simp))
      have hds : d.symbol = k0 := hent (k0, d) (lookup_mem hd)
      have hstep : eraseStep tb k0 = eraseTbl tb k0 := by
        unfold eraseStep
        rw [hd]
        show eraseTbl tb d.symbol = eraseTbl tb k0
        rw [hds]
      rcases List.mem_cons.mp hk with he | hm
      · subst he
        apply lookup_none_of_sublist (eraseFold_sublist rest _)
        rw [hstep]
        exact lookup_eraseTbl_self tb k
      · refine ih ?_ (List.nodup_cons.mp hnd).2 ?_ k hm
        · intro p hp
          exact hent p ((eraseStep_sublist tb k0).subset hp)
        · intro k' hk'
          have hne : k' ≠ k0 := fun he => (List.nodup_cons.mp hnd).1 (he ▸ hk')
          rw [eraseStep_preserve hent hne]
          exact hpres k' (by simp [hk'])

theorem eraseClassFold_sublist (cs : List (String × List String)) :
    ∀ tb : DefMap, (cs.foldl (fun tb c => lokiErase tb c.2) tb).Sublist tb := by
  induction cs with
  | nil => intro tb; exact List.Sublist.refl tb
  | cons c rest ih =>
      intro tb
      simp only [List.foldl_cons]
      exact (ih (lokiErase tb c.2)).trans (lokiErase_sublist tb c.2)

theorem eraseClassFold_preserve {t0 : DefMap} {n : String} :
    ∀ (cs : List (String × List String)),
      (∀ c ∈ cs, c.1 ≠ n ∧ c.2 = classKeys t0 c.1) →
      ∀ {tb : DefMap}, (∀ p ∈ tb, p.2.symbol = p.1) →
      ∀ {k : String}, normalSymbol k = n →
        lookupTbl (cs.foldl (fun tb c => lokiErase tb c.2) tb) k = lookupTbl tb k := by
  intro cs
  induction cs with
  | nil => intro _ tb _ k _; rfl
  | cons c rest ih =>
      intro hcs tb hent k hk
      simp only [List.foldl_cons]
      have hnotin : k ∉ c.2.dropLast := by
        intro hmem
        have hmem' : k ∈ c.2 := (List.dropLast_sublist c.2).subset hmem
        rw [(hcs c (by simp)).2] at hmem'
        exact (hcs c (by simp)).1 (by rw [← normal_of_mem_classKeys hmem', hk])
      rw [ih (fun c' hc' => hcs c' (by simp [hc']))
          (fun p hp => hent p ((lokiErase_sublist tb c.2).subset hp)) hk]
      exact lokiErase_preserve hent hnotin

theorem getLast_not_mem_dropLast {l : List String} (hnd : l.Nodup) {a : String}
    (h : l.getLast? = some a) : a ∉ l.dropLast := by
  intro hmem
  have hne : l ≠ [] := by
    intro he
    rw [he] at h
    simp at h
  have hgl : l.getLast? = some (l.getLast hne) := List.getLast?_eq_getLast l hne
  rw [h] at hgl
  have ha : a = l.getLast hne := by
    injection hgl
  have hsp := List.dropLast_append_getLast hne
  rw [← hsp] at hnd
  have hd := (List.nodup_append.mp hnd).2.2
  exact hd hmem (by simp [← ha])

theorem phase1_entries_symbol {t : DefMap} (hnd : (t.map Prod.fst).Nodup)
    (hsk : ∀ p ∈ t, p.2.symbol = p.1) :
    ∀ p ∈ (classList t).foldl (fun tb c => lokiInherit tb c.2) t, p.2.symbol = p.1 := by
  intro p hp
  have hkeys : ((classList t).foldl (fun tb c => lokiInherit tb c.2) t).map Prod.fst
      = t.map Prod.fst := inheritFold_keys _ t
  have hnd1 : (((classList t).foldl (fun tb c => lokiInherit tb c.2) t).map Prod.fst).Nodup := by
    rw [hkeys]
    exact hnd
  obtain ⟨k, d⟩ := p
  have hlk : lookupTbl ((classList t).foldl (fun tb c => lokiInherit tb c.2) t) k = some d :=
    lookup_of_mem_nodup hnd1 hp
  have hsymb := inheritFold_symbol (classList t) t k
  rw [hlk] at hsymb
  have hkmem : k ∈ t.map Prod.fst := by
    rw [← hkeys]
    exact List.mem_map.mpr ⟨(k, d), hp, rfl⟩
  obtain ⟨d0, hd0⟩ := Option.isSome_iff_exists.mp (lookup_isSome_of_mem_keys hkmem)
  rw [hd0] at hsymb
  have hde : d.symbol = d0.symbol := by simpa using hsymb
  have hd0s : d0.symbol = k := hsk (k, d0) (lookup_mem hd0)
  show d.symbol = k
  rw [hde, hd0s]

/-- The effect of tableLoki on the equivalence class of a normalised
symbol: superseded aliases are erased and the inheritor receives their
symbols and connections. -/
theorem tableLoki_class {t : DefMap} (hnd : (t.map Prod.fst).Nodup)
    (hsk : ∀ p ∈ t, p.2.symbol = p.1) {n : String}
    (hlen : 2 ≤ (classKeys t n).length) :
    (∀ k ∈ (classKeys t n).dropLast, lookupTbl (tableLoki t) k = none) ∧
    (∀ inh, (classKeys t n).getLast? = some inh →
      lookupTbl (tableLoki t) inh = (lookupTbl t inh).map (fun d =>
        { d with
            history := d.history ++ (classKeys t n).dropLast.map (fun k =>
              ((lookupTbl t k).getD defaultDefn).symbol),
            connections := d.connections ++ ((classKeys t n).dropLast.map (fun k =>
              ((lookupTbl t k).getD defaultDefn).connections)).flatten })) := by
  have hksnd : (classKeys t n).Nodup := classKeys_nodup hnd n
  have hln2 : ¬ (classKeys t n).length < 2 := by omega
  have hent1 : ∀ p ∈ (classList t).foldl (fun tb c => lokiInherit tb c.2) t,
      p.2.symbol = p.1 := phase1_entries_symbol hnd hsk
  have hpri : ∀ k ∈ (classKeys t n).dropLast,
      lookupTbl ((classList t).foldl (fun tb c => lokiInherit tb c.2) t) k =
        lookupTbl t k := by
    intro k hkm
    have hkcls : k ∈ classKeys t n := (List.dropLast_sublist (classKeys t n)).subset hkm
    rw [phase1_lookup (normal_of_mem_classKeys hkcls) hlen]
    apply lookup_lokiInherit_ne
    intro inh hlast he
    subst he
    exact getLast_not_mem_dropLast hksnd hlast hkm
  obtain ⟨A, B, heq, hA, hB⟩ :=
    split_of_nodup_firsts (mem_classList_of_len hlen) (classList_firsts_nodup t)
  have hmemA : ∀ c ∈ A, c ∈ classList t := by
    intro c hc
    rw [heq]
    exact List.mem_append.mpr (Or.inl hc)
  have hmemB : ∀ c ∈ B, c ∈ classList t := by
    intro c hc
    rw [heq]
    exact List.mem_append.mpr (Or.inr (by simp [hc]))
  have hAprop : ∀ c ∈ A, c.1 ≠ n ∧ c.2 = classKeys t c.1 :=
    fun c hc => ⟨hA c hc, classList_mem_eq (hmemA c hc)⟩
  have hBprop : ∀ c ∈ B, c.1 ≠ n ∧ c.2 = classKeys t c.1 :=
    fun c hc => ⟨hB c hc, classList_mem_eq (hmemB c hc)⟩
  have htL : tableLoki t =
      B.foldl (fun tb c => lokiErase tb c.2)
        (lokiErase (A.foldl (fun tb c => lokiErase tb c.2)
          ((classList t).foldl (fun tb c => lokiInherit tb c.2) t)) (classKeys t n)) := by
    show (classList t).foldl (fun tb c => lokiErase tb c.2)
        ((classList t).foldl (fun tb c => lokiInherit tb c.2) t) = _
    rw [heq]
    rw [List.foldl_append, List.foldl_cons]
  have hentA : ∀ p ∈ A.foldl (fun tb c => lokiErase tb c.2)
      ((classList t).foldl (fun tb c => lokiInherit tb c.2) t), p.2.symbol = p.1 :=
    fun p hp => hent1 p ((eraseClassFold_sublist A _).subset hp)
  have htbAlook : ∀ k', normalSymbol k' = n →
      lookupTbl (A.foldl (fun tb c => lokiErase tb c.2)
        ((classList t).foldl (fun tb c => lokiInherit tb c.2) t)) k' =
      lookupTbl ((classList t).foldl (fun tb c => lokiInherit tb c.2) t) k' :=
    fun k' hk' => eraseClassFold_preserve A hAprop hent1 hk'
  constructor
  · intro k hkm
    rw [htL]
    apply lookup_none_of_sublist (eraseClassFold_sublist B _)
    show lookupTbl (lokiErase _ (classKeys t n)) k = none
    unfold lokiErase
    rw [if_neg hln2]
    refine eraseFold_mem_none hentA (hksnd.sublist (List.dropLast_sublist _)) ?_ k hkm
    intro k' hk'
    have hk'cls : k' ∈ classKeys t n := (List.dropLast_sublist _).subset hk'
    rw [htbAlook k' (normal_of_mem_classKeys hk'cls), hpri k' hk']
    exact lookup_isSome_of_mem_keys (mem_keys_of_mem_classKeys hk'cls)
  · intro inh hlast
    have hinh_mem : inh ∈ classKeys t n := mem_of_getLast?_eq hlast
    have hinh_norm : normalSymbol inh = n := normal_of_mem_classKeys hinh_mem
    have hinh_ndl : inh ∉ (classKeys t n).dropLast := getLast_not_mem_dropLast hksnd hlast
    have h1 : lookupTbl ((classList t).foldl (fun tb c => lokiInherit tb c.2) t) inh =
        (lookupTbl t inh).map (fun d =>
          { d with
              history := d.history ++ (classKeys t n).dropLast.map (fun k =>
                ((lookupTbl t k).getD defaultDefn).symbol),
              connections := d.connections ++ ((classKeys t n).dropLast.map (fun k =>
                ((lookupTbl t k).getD defaultDefn).connections)).flatten }) := by
      rw [phase1_lookup hinh_norm hlen]
      exact lookup_lokiInherit_self hln2 hlast
    rw [htL]
    have hentMid : ∀ p ∈ lokiErase (A.foldl (fun tb c => lokiErase tb c.2)
        ((classList t).foldl (fun tb c => lokiInherit tb c.2) t)) (classKeys t n),
        p.2.symbol = p.1 :=
      fun p hp => hentA p ((lokiErase_sublist _ _).subset hp)
    rw [eraseClassFold_preserve B hBprop hentMid hinh_norm]
    rw [lokiErase_preserve hentA hinh_ndl]
    rw [htbAlook inh hinh_norm]
    exact h1

/-- Claim C1: after loki clustering, in every equivalence class under
symbol normalisation with at least two definitions, exactly the
last-inserted definition survives: its history is extended by the earlier
aliases' symbols in insertion order, its connection list is its original
list extended by the earlier aliases' connection lists in order, and every
earlier alias is erased from the table.  Stated over any table with unique
keys whose symbol fields match their keys (as after ingest; the definition
table iterates in insertion order, see the header note on unordered_map). -/
theorem claim_C1_loki_fold (t : DefMap) (n : String)
    (hnd : (t.map Prod.fst).Nodup) (hsk : ∀ p ∈ t, p.2.symbol = p.1)
    (hlen : 2 ≤ (classKeys t n).length) :
    (∀ k ∈ (classKeys t n).dropLast, lookupTbl (tableLoki t) k = none) ∧
    (∀ inh, (classKeys t n).getLast? = some inh →
      ∀ d0, lookupTbl t inh = some d0 →
        lookupTbl (tableLoki t) inh = some
          { d0 with
              history := d0.history ++ (classKeys t n).dropLast,
              connections := d0.connections ++ ((classKeys t n).dropLast.map (fun k =>
                ((lookupTbl t k).getD defaultDefn).connections)).flatten }) := by
  obtain ⟨h1, h2⟩ := tableLoki_class hnd hsk hlen
  refine ⟨h1, ?_⟩
  intro inh hlast d0 hd0
  have hres := h2 inh hlast
  rw [hd0] at hres
  have hmap : (classKeys t n).dropLast.map (fun k =>
      ((lookupTbl t k).getD defaultDefn).symbol) = (classKeys t n).dropLast := by
    have hpt : ∀ k ∈ (classKeys t n).dropLast,
        ((lookupTbl t k).getD defaultDefn).symbol = k := by
      intro k hk
      have hkc : k ∈ classKeys t n := (List.dropLast_sublist _).subset hk
      obtain ⟨d, hd⟩ := Option.isSome_iff_exists.mp
        (lookup_isSome_of_mem_keys (mem_keys_of_mem_classKeys hkc))
      rw [hd]
      exact hsk (k, d) (lookup_mem hd)
    calc (classKeys t n).dropLast.map (fun k => ((lookupTbl t k).getD defaultDefn).symbol)
        = (classKeys t n).dropLast.map id := List.map_congr_left hpt
      _ = (classKeys t n).dropLast := List.map_id _
  rw [hmap] at hres
  exact hres

/-- Witness for claim C1 at scenario 4: the hypotheses hold for the
ingested table, and concretely only myFunc survives, with history
[my_func, MyFunc] and the concatenated connection lists. -/
theorem claim_C1_loki_fold_witness :
    ((lokiTbl.map Prod.fst).Nodup ∧ (∀ p ∈ lokiTbl, p.2.symbol = p.1) ∧
     2 ≤ (classKeys lokiTbl "myfunc").length) ∧
    ((∀ k ∈ (classKeys lokiTbl "myfunc").dropLast, lookupTbl (tableLoki lokiTbl) k = none) ∧
     (∀ inh, (classKeys lokiTbl "myfunc").getLast? = some inh →
      ∀ d0, lookupTbl lokiTbl inh = some d0 →
        lookupTbl (tableLoki lokiTbl) inh = some
          { d0 with
              history := d0.history ++ (classKeys lokiTbl "myfunc").dropLast,
              connections := d0.connections ++ ((classKeys lokiTbl "myfunc").dropLast.map
                (fun k => ((lookupTbl lokiTbl k).getD defaultDefn).connections)).flatten })) ∧
    classKeys lokiTbl "myfunc" = ["my_func", "MyFunc", "myFunc"] ∧
    (lookupTbl (tableLoki lokiTbl) "myFunc").map (fun d => d.history) =
      some ["my_func", "MyFunc"] ∧
    (lookupTbl (tableLoki lokiTbl) "myFunc").map (fun d => d.connections) =
      some [⟨2, 1⟩, ⟨0, 1/3⟩, ⟨1, 2/3⟩] ∧
    lookupTbl (tableLoki lokiTbl) "my_func" = none ∧
    lookupTbl (tableLoki lokiTbl) "MyFunc" = none :=
  ⟨⟨by with_unfolding_all decide, by with_unfolding_all decide, by with_unfolding_all decide⟩,
   claim_C1_loki_fold lokiTbl "myfunc" (by with_unfolding_all decide)
     (by with_unfolding_all decide) (by with_unfolding_all decide),
   by with_unfolding_all decide, by with_unfolding_all decide,
   by with_unfolding_all decide, by with_unfolding_all decide,
   by with_unfolding_all decide⟩

/-! ## Claim C9 lemmas -/

theorem foldl_ite_filter {α β : Type} (q : α → Prop) [DecidablePred q] (f : β → α → β) :
    ∀ (l : List α) (a : β),
      l.foldl (fun acc x => if q x then f acc x else acc) a
        = (l.filter (fun x => decide (q x))).foldl f a := by
  intro l
  induction l with
  | nil => intro a; rfl
  | cons x rest ih =>
      intro a
      by_cases hx : q x
      · simp only [List.foldl_cons, List.filter_cons, if_pos hx, decide_eq_true hx,
          if_true, List.foldl_cons]
        rw [ih]
      · simp only [List.foldl_cons, List.filter_cons, if_neg hx,
          decide_eq_false hx, Bool.false_eq_true, if_false]
        rw [ih]

theorem gcwv_eq_filter_foldl (n : Nat) (d : Defn) :
    getConnectionWeightsVector n d =
      (d.connections.filter (fun c => decide (c.Index < n))).foldl
        (fun w c => w.set c.Index c.weight) (List.replicate n 0) := by
  unfold getConnectionWeightsVector
  exact foldl_ite_filter (fun c : Conn => c.Index < n) _ d.connections _

theorem gcwv_filter_eq (n : Nat) (d : Defn) :
    getConnectionWeightsVector n d =
      getConnectionWeightsVector n
        { d with connections := d.connections.filter (fun c => decide (c.Index < n)) } := by
  rw [gcwv_eq_filter_foldl, gcwv_eq_filter_foldl]
  simp only
  rw [List.filter_filter]
  congr 1
  apply List.filter_congr
  intro c _
  by_cases h : c.Index < n <;> simp [h]

theorem gcwv_length (n : Nat) (d : Defn) :
    (getConnectionWeightsVector n d).length = n := by
  unfold getConnectionWeightsVector
  have key : ∀ (l : List Conn) (w : List ℚ), w.length = n →
      (l.foldl (fun w c => if c.Index < n then w.set c.Index c.weight else w) w).length = n := by
    intro l
    induction l with
    | nil => intro w hw; exact hw
    | cons c rest ih =>
        intro w hw
        simp only [List.foldl_cons]
        apply ih
        by_cases hc : c.Index < n
        · rw [if_pos hc, List.length_set]
          exact hw
        · rw [if_neg hc]
          exact hw
  exact key d.connections _ (List.length_replicate n 0)

/-- Claim C9: building the length-N time-axis weight vector is total and
silently skips connections whose index falls outside 0..N−1 (so the vector
and the cosine similarity of any two definitions are unaffected by such
connections and always defined). -/
theorem claim_C9_out_of_range_skipped (sq : ℚ → ℚ) (n : Nat) (d d1 d2 : Defn) :
    (getConnectionWeightsVector n d).length = n ∧
    getConnectionWeightsVector n d =
      getConnectionWeightsVector n
        { d with connections := d.connections.filter (fun c => decide (c.Index < n)) } ∧
    calculateCosineSimilarity sq n d1 d2 =
      calculateCosineSimilarity sq n
        { d1 with connections := d1.connections.filter (fun c => decide (c.Index < n)) }
        { d2 with connections := d2.connections.filter (fun c => decide (c.Index < n)) } := by
  refine ⟨gcwv_length n d, gcwv_filter_eq n d, ?_⟩
  unfold calculateCosineSimilarity
  rw [← gcwv_filter_eq n d1, ← gcwv_filter_eq n d2]
